import Mathlib

/-!
# IRCompiler: global layout, global initialisation and the JIT bump allocator

A shallow embedding of `src/jit/JITRuntime.cpp` and of the inline members of
`src/ir/IRContext.h`: the layout and initialisation of globals in `compile`, the bump allocator
`allocJitMemory`, the placement step `add` in its Windows and Unix variants with the frame walk
of the Apple path, the destructor, and the primitive-type accessors and `getConstantInt`
overloads of the context.

Conventions of the embedding.

* Pointers are natural numbers; `0` is `nullptr`.
* `std::vector<uint8_t> globals` is a `List Nat` of byte values.
* A `std::map` is represented by its iteration sequence (ascending key order).
* C++ `int` quantities (`globalsSize`, `offset`, allocation sizes) are integers. In the layout
  loop of `compile` every `int` addition is reduced to the 32-bit two's-complement range
  (`wrapInt`), which is what the target does on signed overflow. In `initGlobal` the offset
  cursor is an exact integer, and the statements about it say that the stores lie inside the
  block.
* `size_t` quantities are natural numbers reduced modulo `2 ^ 64` where the source adds them.
* A store through `globals.data() + offset` is little-endian (the JIT targets x64); bytes of a
  store that fall outside the vector are dropped by the embedding (in C++ such a store is
  undefined behaviour), and every statement about stored bytes says where the store lies.
* A thrown C++ exception is the `Except.error` result.
* Executable memory is a function from addresses to bytes; calls to the host (operating-system
  allocation, `RtlAddFunctionTable`, `__register_frame`) are parameters or recorded arguments.
-/

namespace IRCompiler

/-! ## IR entities used by the runtime -/

/-- Modelled from the spec: the `IRType` class hierarchy is declared outside `src/`. The closed
variant set of section 3: void, the integers of width 1/8/16/32/64, float, double, pointer,
struct (identified by declaration, not by structure) and function signature. -/
inductive IRType where
  | void
  | int1
  | int8
  | int16
  | int32
  | int64
  | float
  | double
  | pointer (elem : IRType)
  | struct (decl : Nat)
  | function (decl : Nat)
deriving DecidableEq, Repr

/-- Modelled from the spec: `IRFunction` is declared outside `src/`. A function is identified
by its object identity `id`; `type` is its `IRValue::type`. -/
structure IRFunction where
  id : Nat
  type : IRType
deriving DecidableEq, Repr

/-- Modelled from the spec: the `IRConstant` hierarchy is declared outside `src/`. The variants
that `initGlobal` tells apart with `dynamic_cast`: `IRConstantStruct`, `IRConstantInt` (unsigned
64-bit payload), `IRConstantFP` (the payload is the IEEE-754 bit pattern of the `double`),
`IRFunction`, and `unknown` for a constant that is none of these four. -/
inductive IRConstant where
  | struct (type : IRType) (values : List IRConstant)
  | int (type : IRType) (value : Nat)
  | fp (type : IRType) (value : Nat)
  | function (func : IRFunction)
  | unknown (type : IRType)

/-- The member `IRValue::type` of a constant. -/
def IRConstant.type : IRConstant → IRType
  | .struct t _ => t
  | .int t _ => t
  | .fp t _ => t
  | .function f => f.type
  | .unknown t => t

/-- Modelled from the spec: `IRGlobalVariable` is declared outside `src/`. `elementType` is
`type->getPointerElementType()`, the pointee type of the variable; `initialValue` is the
optional initializer (`none` is the null pointer); `globalsOffset` is the byte offset assigned
by `compile`. -/
structure IRGlobalVariable where
  name : String
  elementType : IRType
  initialValue : Option IRConstant
  globalsOffset : Int := 0

/-- Modelled from the spec: `IRValue` is declared outside `src/`. The keys of the native-mapping
table: a function, or any other value (for which `dynamic_cast<IRFunction*>` is null). -/
inductive IRValue where
  | function (func : IRFunction)
  | other (id : Nat)
deriving DecidableEq, Repr

/-- The ways the embedded code can fail: a thrown `std::runtime_error` with its message, the
`std::length_error` of `resize`, `emptyBlockList` for the indexing of an empty `blocks`
vector (undefined behaviour in C++), and `walkDiverged` for a frame walk that is still running
when its step bound is used up. -/
inductive Fault where
  | runtimeError (what : String)
  | lengthError
  | emptyBlockList
  | walkDiverged
deriving DecidableEq, Repr

/-- Modelled from the spec: `MachineCodeHolder` is declared outside `src/`. One entry per call
received from `compile`: `addFunction(func)` requests emission of `func`, and
`addFunction(func, external)` binds `func` to a native address. -/
inductive HolderEntry where
  | emit (func : IRFunction)
  | external (func : IRFunction) (addr : Nat)
deriving DecidableEq, Repr

/-- The code holder is the sequence of `addFunction` calls it received. -/
abbrev MachineCodeHolder := List HolderEntry

/-! ## Arithmetic helpers -/

/-- The expression `(x + 7) / 8 * 8` on `int`; C++ division truncates toward zero. -/
def round8 (x : Int) : Int := Int.tdiv (x + 7) 8 * 8

/-- The largest value of a 32-bit `int`. -/
def intMax : Int := 2147483647

/-- Reduction of an integer to the range of a 32-bit two's-complement `int`
(`-2147483648 .. 2147483647`): the value an `int` holds after an addition that overflows. -/
def wrapInt (x : Int) : Int := (x + 2147483648) % 4294967296 - 2147483648

/-- The expression `(x + 15) / 16 * 16` on `size_t`. -/
def round16 (x : Nat) : Nat := (x + 15) % 2 ^ 64 / 16 * 16

/-- Number of values of `size_t`. -/
def sizeMod : Nat := 2 ^ 64

/-! ## The byte vector `globals` -/

/-- Store one byte at `globals.data() + i`. -/
def setByte (g : List Nat) (i : Int) (b : Nat) : List Nat :=
  if 0 ≤ i then g.set i.toNat b else g

/-- Store the bytes `bs` at `globals.data() + off`, lowest address first. -/
def storeBytes : List Nat → Int → List Nat → List Nat
  | g, _, [] => g
  | g, off, b :: bs => storeBytes (setByte g off b) (off + 1) bs

/-- The byte at `globals.data() + i` (`0` outside the vector). -/
def byteAt (g : List Nat) (i : Int) : Nat :=
  if 0 ≤ i then g.getD i.toNat 0 else 0

/-- The `n` low bytes of `v`, least significant first: the object representation of
`(uintN_t)v` for `N = 8 * n` on a little-endian machine. -/
def leBytes : Nat → Nat → List Nat
  | 0, _ => []
  | n + 1, v => v % 256 :: leBytes n (v / 256)

/-- Read an `n`-byte little-endian unsigned value at `globals.data() + off`. -/
def loadLE (g : List Nat) (off : Int) : Nat → Nat
  | 0 => 0
  | n + 1 => byteAt g off + 256 * loadLE g (off + 1) n

/-- The call `globals.resize(n)`: truncate, or append zero bytes. -/
def resize (g : List Nat) (n : Nat) : List Nat :=
  g.take n ++ List.replicate (n - g.length) 0

/-! ## `JITRuntime` -/

/-- The members `blocks`, `blockPos`, `blockSize` and `frames` of `JITRuntime`: the only
members that `add`, `allocJitMemory` and the destructor read or write. -/
structure JitMemory where
  blocks : List Nat := []
  blockPos : Nat := 0
  blockSize : Nat := 0
  frames : List Nat := []
deriving DecidableEq, Repr

/-- The state of a `JITRuntime`: the storage block `globals`, the `functionTable` map
(as its key/value entries) and the executable-memory members. -/
structure JITRuntime where
  globals : List Nat := []
  functionTable : List (IRFunction × Nat) := []
  mem : JitMemory := {}

/-- The lookup `functionTable.find(func)` followed by `it->second`, `none` for `end()`. -/
def findFunction (table : List (IRFunction × Nat)) (func : IRFunction) : Option Nat :=
  (table.find? fun e => e.1 = func).map fun e => e.2

/-- `JITRuntime::getPointerToFunction`: the recorded address, or `nullptr` (`0`). -/
def JITRuntime.getPointerToFunction (rt : JITRuntime) (func : IRFunction) : Nat :=
  match findFunction rt.functionTable func with
  | some p => p
  | none => 0

/-- `JITRuntime::getPointerToGlobal`: `globals.data() + var->globalsOffset`, where `data` is
the address `globals.data()`. -/
def JITRuntime.getPointerToGlobal (data : Int) (var : IRGlobalVariable) : Int :=
  data + var.globalsOffset

mutual
/-- `JITRuntime::initGlobal`, as a function of the storage block. `sz` is
`IRType::getTypeAllocSize`, `f32` is the conversion `(float)` on bit patterns (double to
single), `table` is the member `functionTable`. -/
def JITRuntime.initGlobal (sz : IRType → Int) (f32 : Nat → Nat)
    (table : List (IRFunction × Nat)) : List Nat → Int → IRConstant → Except Fault (List Nat)
  | g, offset, .struct _ values => JITRuntime.initGlobalFields sz f32 table g offset values
  | g, offset, .int t value =>
    match t with
    | .int32 => .ok (storeBytes g offset (leBytes 4 value))
    | .int1 => .ok (storeBytes g offset (leBytes 4 value))
    | .int64 => .ok (storeBytes g offset (leBytes 8 value))
    | .int16 => .ok (storeBytes g offset (leBytes 2 value))
    | .int8 => .ok (storeBytes g offset (leBytes 1 value))
    | _ => .error (.runtimeError "Unknown IRConstantInt type")
  | g, offset, .fp t value =>
    match t with
    | .float => .ok (storeBytes g offset (leBytes 4 (f32 value)))
    | .double => .ok (storeBytes g offset (leBytes 8 value))
    | _ => .error (.runtimeError "Unknown IRConstantFP type")
  | g, offset, .function func =>
    .ok (storeBytes g offset (leBytes 8 (JITRuntime.getPointerToFunction
      { functionTable := table } func)))
  | _, _, .unknown _ => .error (.runtimeError "Unknown IRConstant type")
/-- The loop `for (IRConstant* svalue : initStruct->values)` of `initGlobal`. -/
def JITRuntime.initGlobalFields (sz : IRType → Int) (f32 : Nat → Nat)
    (table : List (IRFunction × Nat)) : List Nat → Int → List IRConstant → Except Fault (List Nat)
  | g, _, [] => .ok g
  | g, offset, svalue :: rest =>
    match JITRuntime.initGlobal sz f32 table g offset svalue with
    | .error e => .error e
    | .ok g' => JITRuntime.initGlobalFields sz f32 table g' (offset + round8 (sz svalue.type)) rest
end

/-- The first loop of `compile`: assign `globalsOffset` to every variable in iteration order.
Returns the updated variables and the final `globalsSize`. The variables `size` and
`globalsSize` are 32-bit `int`s: the additions `getTypeAllocSize() + 7` and
`globalsSize += size` wrap around (the division and the multiplication by 8 that follow the
first addition cannot overflow). -/
def layoutGlobals (sz : IRType → Int) :
    List IRGlobalVariable → Int → List IRGlobalVariable × Int
  | [], globalsSize => ([], globalsSize)
  | var :: rest, globalsSize =>
    let size := Int.tdiv (wrapInt (sz var.elementType + 7)) 8 * 8
    let r := layoutGlobals sz rest (wrapInt (globalsSize + size))
    ({ var with globalsOffset := globalsSize } :: r.1, r.2)

/-- The last loop of `compile`: `initGlobal` for every variable that has an initializer. -/
def initGlobals (sz : IRType → Int) (f32 : Nat → Nat) (table : List (IRFunction × Nat)) :
    List Nat → List IRGlobalVariable → Except Fault (List Nat)
  | g, [] => .ok g
  | g, var :: rest =>
    match var.initialValue with
    | none => initGlobals sz f32 table g rest
    | some value =>
      match JITRuntime.initGlobal sz f32 table g var.globalsOffset value with
      | .error e => .error e
      | .ok g' => initGlobals sz f32 table g' rest

/-- The two code-holder loops of `compile`: every function is passed to `addFunction(func)`,
then every mapping whose key is a function is passed to `addFunction(func, address)`. -/
def fillCodeHolder (functions : List IRFunction) (globalMappings : List (IRValue × Nat)) :
    MachineCodeHolder :=
  functions.map HolderEntry.emit ++
    globalMappings.filterMap fun m =>
      match m.1 with
      | .function func => some (HolderEntry.external func m.2)
      | .other _ => none

/-- `JITRuntime::compile` (`vars` is the parameter `variables`). The platform-specific
placement step `add` is a parameter; it acts on the executable-memory members only. Returns the
runtime and the variables with their assigned offsets. A negative `globalsSize` converted to
`size_t` exceeds `max_size()`, so `resize` throws `std::length_error`. -/
def JITRuntime.compile (sz : IRType → Int) (f32 : Nat → Nat)
    (add : MachineCodeHolder → JitMemory → Except Fault JitMemory) (rt : JITRuntime)
    (functions : List IRFunction) (vars : List IRGlobalVariable)
    (globalMappings : List (IRValue × Nat)) :
    Except Fault (JITRuntime × List IRGlobalVariable) :=
  let laid := layoutGlobals sz vars 0
  if laid.2 < 0 then .error .lengthError
  else
    let globals := resize rt.globals laid.2.toNat
    match add (fillCodeHolder functions globalMappings) rt.mem with
    | .error e => .error e
    | .ok mem =>
      match initGlobals sz f32 rt.functionTable globals laid.1 with
      | .error e => .error e
      | .ok globals' =>
        .ok ({ globals := globals', functionTable := rt.functionTable, mem := mem }, laid.1)

/-- The body of `JITRuntime::add` in a 32-bit Windows build (`WIN32` without `_WIN64`): empty. -/
def addWin32 (_ : MachineCodeHolder) (m : JitMemory) : Except Fault JitMemory := .ok m

/-- `JITRuntime::allocJitMemory`. `virtualAlloc` is the operating-system allocation (`none` is
a null result). Returns the pointer and the new state. Indexing `blocks[blocks.size() - 1]` on an
empty vector is reported as `Fault.emptyBlockList`. -/
def allocJitMemory (virtualAlloc : Nat → Option Nat) (m : JitMemory) (size : Nat) :
    Except Fault (Nat × JitMemory) :=
  if (m.blockPos + size) % sizeMod ≤ m.blockSize then
    match m.blocks.getLast? with
    | none => .error .emptyBlockList
    | some p => .ok (p + m.blockPos, { m with blockPos := (m.blockPos + size) % sizeMod })
  else
    let allocSize := 1024 * 1024
    match virtualAlloc allocSize with
    | none => .error (.runtimeError "VirtualAllocEx failed")
    | some base =>
      .ok (base, { m with blocks := m.blocks ++ [base], blockSize := allocSize, blockPos := size })

/-! ## `IRContext` -/

/-- The primitive-type members of `IRContext` (`IRType*`, `none` is `nullptr`, the value is the
identity of the instance). -/
structure IRContext where
  voidType : Option Nat := none
  int1Type : Option Nat := none
  int8Type : Option Nat := none
  int16Type : Option Nat := none
  int32Type : Option Nat := none
  int64Type : Option Nat := none
  floatType : Option Nat := none
  doubleType : Option Nat := none
deriving DecidableEq, Repr

/-- The eight primitive kinds that have an accessor. -/
inductive Primitive where
  | void | int1 | int8 | int16 | int32 | int64 | float | double
deriving DecidableEq, Repr

/-- `IRContext::getVoidTy`: returns the member; the context is not modified. -/
def IRContext.getVoidTy (c : IRContext) : Option Nat × IRContext := (c.voidType, c)
/-- `IRContext::getInt1Ty`. -/
def IRContext.getInt1Ty (c : IRContext) : Option Nat × IRContext := (c.int1Type, c)
/-- `IRContext::getInt8Ty`. -/
def IRContext.getInt8Ty (c : IRContext) : Option Nat × IRContext := (c.int8Type, c)
/-- `IRContext::getInt16Ty`. -/
def IRContext.getInt16Ty (c : IRContext) : Option Nat × IRContext := (c.int16Type, c)
/-- `IRContext::getInt32Ty`. -/
def IRContext.getInt32Ty (c : IRContext) : Option Nat × IRContext := (c.int32Type, c)
/-- `IRContext::getInt64Ty`. -/
def IRContext.getInt64Ty (c : IRContext) : Option Nat × IRContext := (c.int64Type, c)
/-- `IRContext::getFloatTy`. -/
def IRContext.getFloatTy (c : IRContext) : Option Nat × IRContext := (c.floatType, c)
/-- `IRContext::getDoubleTy`. -/
def IRContext.getDoubleTy (c : IRContext) : Option Nat × IRContext := (c.doubleType, c)

/-- The accessor for a primitive kind. -/
def IRContext.getTy (c : IRContext) : Primitive → Option Nat × IRContext
  | .void => c.getVoidTy
  | .int1 => c.getInt1Ty
  | .int8 => c.getInt8Ty
  | .int16 => c.getInt16Ty
  | .int32 => c.getInt32Ty
  | .int64 => c.getInt64Ty
  | .float => c.getFloatTy
  | .double => c.getDoubleTy

/-- The cache slot read by the accessor of a primitive kind. -/
def IRContext.slot (c : IRContext) : Primitive → Option Nat
  | .void => c.voidType
  | .int1 => c.int1Type
  | .int8 => c.int8Type
  | .int16 => c.int16Type
  | .int32 => c.int32Type
  | .int64 => c.int64Type
  | .float => c.floatType
  | .double => c.doubleType

/-! ## Notions used to state the properties -/

/-- Sum of the 8-byte-rounded allocation sizes of a sequence of globals. -/
def sumRound8 (sz : IRType → Int) (vs : List IRGlobalVariable) : Int :=
  (vs.map fun v => round8 (sz v.elementType)).sum

/-- A constant tree contains a node that `initGlobal` does not recognise: an integer constant
whose type is not one of the five integer types, a floating-point constant whose type is neither
float nor double, or a constant of unknown kind. -/
inductive Unrecognised : IRConstant → Prop where
  | int (t : IRType) (v : Nat) : t ≠ .int1 → t ≠ .int8 → t ≠ .int16 → t ≠ .int32 →
      t ≠ .int64 → Unrecognised (.int t v)
  | fp (t : IRType) (v : Nat) : t ≠ .float → t ≠ .double → Unrecognised (.fp t v)
  | unknown (t : IRType) : Unrecognised (.unknown t)
  | field (t : IRType) (values : List IRConstant) (c : IRConstant) : c ∈ values →
      Unrecognised c → Unrecognised (.struct t values)

/-- The declared width in bytes of a scalar type: `ceil(w / 8)` for a `w`-bit type. -/
def byteWidth : IRType → Nat
  | .int1 => 1
  | .int8 => 1
  | .int16 => 2
  | .int32 => 4
  | .int64 => 8
  | .float => 4
  | .double => 8
  | _ => 0

/-- The payload of an integer or floating-point constant. -/
def IRConstant.payload : IRConstant → Nat
  | .int _ v => v
  | .fp _ v => v
  | _ => 0

/-- A leaf constant of the round-trip property: an integer constant of width 8, 16, 32 or 64, or
a double constant. -/
def IsLeaf : IRConstant → Prop
  | .int t _ => t = .int8 ∨ t = .int16 ∨ t = .int32 ∨ t = .int64
  | .fp t _ => t = .double
  | _ => False

/-- Sum of the 8-byte-rounded allocation sizes of a sequence of struct fields. -/
def fieldsSize (sz : IRType → Int) (cs : List IRConstant) : Int :=
  (cs.map fun c => round8 (sz c.type)).sum

/-- The usual allocation sizes in bytes, an instance of `IRType::getTypeAllocSize` for the
examples: 1 for Int1 and Int8, 2 for Int16, 4 for Int32 and Float, 8 for Int64, Double and
pointers, 0 otherwise. -/
def allocSizeOf : IRType → Int
  | .int1 => 1
  | .int8 => 1
  | .int16 => 2
  | .int32 => 4
  | .int64 => 8
  | .float => 4
  | .double => 8
  | .pointer _ => 8
  | _ => 0

/-- Three globals for the layout examples: an Int32, a Double and an Int8. -/
def exampleGlobals : List IRGlobalVariable :=
  [{ name := "a", elementType := .int32, initialValue := none },
   { name := "b", elementType := .double, initialValue := none },
   { name := "c", elementType := .int8, initialValue := none }]

/-- Three integer globals: an Int8 initialised with `0x1FF`, an Int32 initialised with `42` and
an Int64 without initializer. -/
def exampleIntGlobals : List IRGlobalVariable :=
  [{ name := "b", elementType := .int8, initialValue := some (.int .int8 0x1FF) },
   { name := "g", elementType := .int32, initialValue := some (.int .int32 42) },
   { name := "z", elementType := .int64, initialValue := none }]

/-- The fields of the aggregate `{Int32 0xCAFEBABE, Double 3.5}`; `0x400C000000000000` is the
bit pattern of the double `3.5`. -/
def exampleFields : List IRConstant :=
  [.int .int32 0xCAFEBABE, .fp .double 0x400C000000000000]

/-- The number of bytes `initGlobal` stores for an integer constant of each integer type: the
width of the `uintN_t` lvalue assigned in the branch taken for that type. -/
def intStoreBytes : IRType → Nat
  | .int1 => 4
  | .int8 => 1
  | .int16 => 2
  | .int32 => 4
  | .int64 => 8
  | _ => 0

/-- The five integer types. -/
def IsIntType (t : IRType) : Prop :=
  t = .int1 ∨ t = .int8 ∨ t = .int16 ∨ t = .int32 ∨ t = .int64

/-- A function used in the examples. -/
def exampleFunction : IRFunction := { id := 1, type := .function 0 }

/-- An operating system that maps every request at address `4096`. -/
def exampleAlloc (_ : Nat) : Option Nat := some 4096

/-! ## Placement on Windows x64 -/

/-- Modelled from the spec: an element of `MachineCodeHolder::getFunctionTable()`, declared
outside `src/`: the code range of one function and the start of its unwind data, as offsets. -/
structure FunctionTableEntry where
  beginAddress : Nat
  endAddress : Nat
  beginUnwindData : Nat
deriving DecidableEq, Repr

/-- Modelled from the spec: what the code holder reports to the Windows `add`, the results of
`codeSize()`, `unwindDataSize()` and `getFunctionTable()`. -/
structure Win64Emission where
  codeSize : Nat
  unwindDataSize : Nat
  functionTable : List FunctionTableEntry
deriving DecidableEq, Repr

/-- A `RUNTIME_FUNCTION`: three `DWORD`s, twelve bytes. -/
structure RuntimeFunction where
  BeginAddress : Nat
  EndAddress : Nat
  UnwindInfoAddress : Nat
deriving DecidableEq, Repr

/-- The loop of the Windows `add` that fills the function table. `codeSize` is the rounded code
size and `table` the running pointer; every iteration writes one `RUNTIME_FUNCTION` at `table`
(the casts to `DWORD` keep the low 32 bits) and executes `table++`. Returns the writes as
(address, contents) pairs and the value of `table` after the loop. -/
def writeFunctionTable (codeSize : Nat) :
    Nat → List FunctionTableEntry → List (Nat × RuntimeFunction) × Nat
  | table, [] => ([], table)
  | table, entry :: rest =>
    let r := writeFunctionTable codeSize (table + 12) rest
    ((table, { BeginAddress := entry.beginAddress % 2 ^ 32,
               EndAddress := entry.endAddress % 2 ^ 32,
               UnwindInfoAddress := (codeSize + entry.beginUnwindData) % 2 ^ 32 }) :: r.1, r.2)

/-- The outcome of the Windows `add`: the new allocator state, the three region addresses, the
table writes, and the arguments of the call `RtlAddFunctionTable(table, count, baseaddr)`. -/
structure Win64Placement where
  mem : JitMemory
  baseaddr : Nat
  unwindaddr : Nat
  tableaddr : Nat
  written : List (Nat × RuntimeFunction)
  installedTable : Nat
  installedCount : Nat
  installedBase : Nat
deriving DecidableEq, Repr

/-- `JITRuntime::add` in a 64-bit Windows build. `rtlAddFunctionTable` is the host call (its
result is the `BOOLEAN`). The pointer pushed on `frames` and passed to the host is the variable
`table` as the loop left it. -/
def addWin64 (virtualAlloc : Nat → Option Nat) (rtlAddFunctionTable : Nat → Nat → Nat → Bool)
    (e : Win64Emission) (m : JitMemory) : Except Fault Win64Placement :=
  let codeSize := round16 e.codeSize
  let unwindDataSize := round16 e.unwindDataSize
  let functionTableSize := round16 (e.functionTable.length * 12 % sizeMod)
  match allocJitMemory virtualAlloc m
      ((codeSize + unwindDataSize + functionTableSize) % sizeMod) with
  | .error f => .error f
  | .ok (baseaddr, m1) =>
    let unwindaddr := baseaddr + codeSize
    let tableaddr := baseaddr + codeSize + unwindDataSize
    let loop := writeFunctionTable codeSize tableaddr e.functionTable
    let table := loop.2
    let count := e.functionTable.length % 2 ^ 32
    if rtlAddFunctionTable table count baseaddr then
      .ok { mem := { m1 with frames := m1.frames ++ [table] },
            baseaddr := baseaddr, unwindaddr := unwindaddr, tableaddr := tableaddr,
            written := loop.1, installedTable := table, installedCount := count,
            installedBase := baseaddr }
    else .error (.runtimeError "RtlAddFunctionTable failed")

/-! ## The destructor -/

/-- The three build variants told apart by the preprocessor. -/
inductive Platform where
  | win64
  | win32
  | unix
deriving DecidableEq, Repr

/-- The calls made by `JITRuntime::~JITRuntime`. -/
inductive TeardownCall where
  | rtlDeleteFunctionTable (frame : Nat)
  | deregisterFrame (frame : Nat)
  | virtualFree (block : Nat)
deriving DecidableEq, Repr

/-- `JITRuntime::~JITRuntime`, as the sequence of calls it makes: the loop over `frames`
(compiled in for `_WIN64` and for non-Windows builds only), then the loop over `blocks`. -/
def destructor (platform : Platform) (m : JitMemory) : List TeardownCall :=
  (match platform with
    | .win64 => m.frames.map TeardownCall.rtlDeleteFunctionTable
    | .win32 => []
    | .unix => m.frames.map TeardownCall.deregisterFrame) ++
    m.blocks.map TeardownCall.virtualFree

/-- The frame removed by a call, if the call is a deregistration. -/
def TeardownCall.frame? : TeardownCall → Option Nat
  | .rtlDeleteFunctionTable p => some p
  | .deregisterFrame p => some p
  | .virtualFree _ => none

/-- The block released by a call, if the call is a release. -/
def TeardownCall.block? : TeardownCall → Option Nat
  | .virtualFree b => some b
  | _ => none

/-! ## The `getConstantInt` overloads -/

/-- The conversion `(uint64_t)value` of a signed integer: reduction modulo `2 ^ 64`. -/
def toUInt64 (value : Int) : Nat := (value % 2 ^ 64).toNat

/-- The overload `getConstantInt(IRType*, uint32_t)`; `getConstantInt` is the overload taking
`uint64_t`, which is declared only. -/
def IRContext.getConstantInt_uint32 {α : Type} (getConstantInt : Nat → Nat → α) (type : Nat)
    (value : Nat) : α :=
  getConstantInt type value

/-- The overload `getConstantInt(IRType*, int64_t)`. -/
def IRContext.getConstantInt_int64 {α : Type} (getConstantInt : Nat → Nat → α) (type : Nat)
    (value : Int) : α :=
  getConstantInt type (toUInt64 value)

/-- The overload `getConstantInt(IRType*, int32_t)`. -/
def IRContext.getConstantInt_int32 {α : Type} (getConstantInt : Nat → Nat → α) (type : Nat)
    (value : Int) : α :=
  getConstantInt type (toUInt64 value)

/-- The `int32_t` value whose bit pattern is the 32-bit pattern `bits`. -/
def int32OfBits (bits : Nat) : Int :=
  if bits < 2 ^ 31 then (bits : Int) else (bits : Int) - 2 ^ 32

/-- A batch of one function of 32 code bytes with 16 bytes of unwind data. -/
def exampleBatch : Win64Emission :=
  { codeSize := 32, unwindDataSize := 16,
    functionTable := [{ beginAddress := 0, endAddress := 32, beginUnwindData := 0 }] }

/-- A host that accepts every function table. -/
def exampleRtlAdd (_ _ _ : Nat) : Bool := true

/-! ## Sequences of allocations -/

/-- A sequence of `allocJitMemory` calls with the given sizes. `os k` is the answer of the
operating system to the request for the block that becomes `blocks[k]` (`none` is a refusal).
Returns the regions handed out, as (pointer, size) pairs in call order, and the final state. -/
def allocSequence (os : Nat → Option Nat) :
    JitMemory → List Nat → Except Fault (List (Nat × Nat) × JitMemory)
  | m, [] => .ok ([], m)
  | m, size :: rest =>
    match allocJitMemory (fun _ => os m.blocks.length) m size with
    | .error f => .error f
    | .ok (p, m1) =>
      match allocSequence os m1 rest with
      | .error f => .error f
      | .ok (rs, m2) => .ok ((p, size) :: rs, m2)

/-- Two regions, given as (pointer, size), have no byte in common. -/
def regionsDisjoint (r q : Nat × Nat) : Prop :=
  r.1 + r.2 ≤ q.1 ∨ q.1 + q.2 ≤ r.1

/-- The invariant of the allocator after the regions `rs` have been handed out: the cursor is
inside the current block, blocks have 1 MiB, the blocks are those granted by the operating
system, every region lies inside a block (below the cursor if it is the current block), and the
regions are pairwise disjoint. -/
structure AllocInv (os : Nat → Option Nat) (m : JitMemory) (rs : List (Nat × Nat)) : Prop where
  pos_le : m.blockPos ≤ m.blockSize
  empty : m.blocks = [] → m.blockSize = 0
  nonempty : m.blocks ≠ [] → m.blockSize = 1024 * 1024
  fromOs : ∀ (k b : Nat), m.blocks[k]? = some b → os k = some b
  inside : ∀ r ∈ rs, ∃ (k b : Nat), m.blocks[k]? = some b ∧ b ≤ r.1 ∧
    r.1 + r.2 ≤ b + 1024 * 1024 ∧ (k + 1 = m.blocks.length → r.1 + r.2 ≤ b + m.blockPos)
  disjoint : rs.Pairwise regionsDisjoint

/-- An operating system that grants the `k`-th block at address `(k + 1) * 2 ^ 20`. -/
def exampleOs (k : Nat) : Option Nat := some ((k + 1) * 1048576)

/-! ## Placement on Unix -/

/-- Store the bytes `bs` at address `addr` of the executable memory (`memcpy`). -/
def writeMem (mem : Nat → Nat) (addr : Nat) (bs : List Nat) : Nat → Nat :=
  fun a => if addr ≤ a ∧ a < addr + bs.length then bs.getD (a - addr) 0 else mem a

/-- Read an `n`-byte little-endian unsigned value at address `addr` of the executable memory. -/
def readMem (mem : Nat → Nat) (addr : Nat) : Nat → Nat
  | 0 => 0
  | n + 1 => mem addr % 256 + 256 * readMem mem (addr + 1) n

/-- The `while (true)` loop of the Apple path of `add`, started at `entry`; the first argument
bounds the number of iterations (`none` when the bound is used up). Returns the entries passed
to `__register_frame`, in order; each of them is also pushed on `frames`. The step
`entry += length + 4` is computed in `uint32_t`, the step `entry += length64 + 12` in
`uint64_t`. -/
def registerFramesApple (mem : Nat → Nat) : Nat → Nat → Option (List Nat)
  | 0, _ => none
  | fuel + 1, entry =>
    let length := readMem mem entry 4
    if length = 0 then some []
    else if length = 0xffffffff then
      let length64 := readMem mem (entry + 4) 8
      if length64 = 0 then some []
      else
        let offset := readMem mem (entry + 12) 8
        match registerFramesApple mem fuel (entry + (length64 + 12) % 2 ^ 64) with
        | none => none
        | some rest => some (if offset ≠ 0 then entry :: rest else rest)
    else
      let offset := readMem mem (entry + 4) 4
      match registerFramesApple mem fuel (entry + (length + 4) % 2 ^ 32) with
      | none => none
      | some rest => some (if offset ≠ 0 then entry :: rest else rest)

/-- Modelled from the spec: what the code holder and `UnwindInfoUnix::create` (both outside
`src/`) report to the Unix `add`: the code size, the raw unwind bytes and the offset
`fdeFunctionStart` of the fields to patch. -/
structure UnixEmission where
  codeSize : Nat
  unwindInfo : List Nat
  fdeFunctionStart : Nat
deriving DecidableEq, Repr

/-- The outcome of the Unix `add`: the new allocator state, the executable memory, the returned
pointer `p` (`0` is `nullptr`), the relocated size, the address of the unwind bytes and the
entries passed to `__register_frame`. -/
structure UnixPlacement where
  mem : JitMemory
  memory : Nat → Nat
  p : Nat
  relocSize : Nat
  unwindptr : Nat
  registered : List Nat

/-- `JITRuntime::add` in a non-Windows build; `apple` selects the `__APPLE__` variant and
`fuel` bounds its frame walk. `relocate` is `codeholder->relocate(p)`: it writes the code into
the executable memory and returns the relocated size. The statement
`blockPos -= codeSize - unwindStart` is computed in `size_t`. -/
def addUnix (apple : Bool) (fuel : Nat) (virtualAlloc : Nat → Option Nat)
    (relocate : (Nat → Nat) → Nat → (Nat → Nat) × Nat) (e : UnixEmission)
    (memory : Nat → Nat) (m : JitMemory) : Except Fault UnixPlacement :=
  if e.codeSize = 0 then
    .ok { mem := m, memory := memory, p := 0, relocSize := 0, unwindptr := 0, registered := [] }
  else
    let unwindInfoSize := e.unwindInfo.length
    let codeSize := round16 e.codeSize
    match allocJitMemory virtualAlloc m ((codeSize + unwindInfoSize) % sizeMod) with
    | .error f => .error f
    | .ok (p, m1) =>
      let rel := relocate memory p
      let relocSize := rel.2
      let unwindStart := round16 relocSize
      let blockPos :=
        (m1.blockPos + sizeMod - (codeSize + sizeMod - unwindStart) % sizeMod) % sizeMod
      let unwindptr := p + unwindStart
      let mem1 := writeMem rel.1 unwindptr e.unwindInfo
      if unwindInfoSize > 0 then
        let mem2 := writeMem mem1 (unwindptr + e.fdeFunctionStart)
          (leBytes 8 p ++ leBytes 8 relocSize)
        if apple then
          match registerFramesApple mem2 fuel unwindptr with
          | none => .error .walkDiverged
          | some entries =>
            .ok { mem := { m1 with blockPos := blockPos, frames := m1.frames ++ entries },
                  memory := mem2, p := p, relocSize := relocSize, unwindptr := unwindptr,
                  registered := entries }
        else
          .ok { mem := { m1 with blockPos := blockPos, frames := m1.frames ++ [unwindptr] },
                memory := mem2, p := p, relocSize := relocSize, unwindptr := unwindptr,
                registered := [unwindptr] }
      else
        .ok { mem := { m1 with blockPos := blockPos }, memory := mem1, p := p,
              relocSize := relocSize, unwindptr := unwindptr, registered := [] }

/-- One record of an unwind blob: its start address, whether it is in extended form, its
length field and its offset field. -/
structure FdeRecord where
  start : Nat
  extended : Bool
  length : Nat
  offset : Nat
deriving DecidableEq, Repr

/-- The memory at `a` holds the records `rs` followed by a zero length word. A record in 32-bit
form has a non-zero length word `L`, its offset field at `+4` and extent `L + 4`, an extent below
4 GiB; a record in extended form has the length word `0xffffffff`, a non-zero 64-bit length `L64`
at `+4`, its 64-bit offset field at `+12` and extent `L64 + 12`, which fits in the address
space. -/
def IsBlob (mem : Nat → Nat) : Nat → List FdeRecord → Prop
  | a, [] => readMem mem a 4 = 0
  | a, r :: rest =>
    r.start = a ∧
      ((r.extended = false ∧ readMem mem a 4 = r.length ∧ r.length ≠ 0 ∧
          r.length + 4 < 2 ^ 32 ∧ readMem mem (a + 4) 4 = r.offset ∧
          IsBlob mem (a + (r.length + 4)) rest) ∨
        (r.extended = true ∧ readMem mem a 4 = 0xffffffff ∧
          readMem mem (a + 4) 8 = r.length ∧ r.length ≠ 0 ∧ r.length + 12 < 2 ^ 64 ∧
          readMem mem (a + 12) 8 = r.offset ∧ IsBlob mem (a + (r.length + 12)) rest))

/-- The start addresses of the records whose offset field is non-zero, in blob order. -/
def registeredStarts (rs : List FdeRecord) : List Nat :=
  (rs.filter fun r => r.offset != 0).map fun r => r.start

/-- An unwind blob of three records and the terminator: a 32-bit record of length 8 with offset
field 0, a 32-bit record of length 8 with offset field 12, and an extended record of length 16
with offset field 1. -/
def exampleBlobBytes : List Nat :=
  [8, 0, 0, 0, 0, 0, 0, 0, 1, 2, 3, 4,
   8, 0, 0, 0, 12, 0, 0, 0, 5, 6, 7, 8,
   255, 255, 255, 255, 16, 0, 0, 0, 0, 0, 0, 0, 1, 0, 0, 0, 0, 0, 0, 0, 9, 9, 9, 9, 9, 9, 9, 9,
   0, 0, 0, 0]

/-- The example blob placed at address 4096 of an otherwise zero memory. -/
def exampleBlobMemory : Nat → Nat := writeMem (fun _ => 0) 4096 exampleBlobBytes

/-- The records of the example blob. -/
def exampleBlobRecords : List FdeRecord :=
  [{ start := 4096, extended := false, length := 8, offset := 0 },
   { start := 4108, extended := false, length := 8, offset := 12 },
   { start := 4120, extended := true, length := 16, offset := 1 }]

/-- A relocation that leaves the memory alone and reports 40 relocated bytes. -/
def exampleRelocate (mem : Nat → Nat) (_ : Nat) : (Nat → Nat) × Nat := (mem, 40)

/-- A function of 48 code bytes with 24 bytes of unwind information. -/
def exampleUnixEmission : UnixEmission :=
  { codeSize := 48, unwindInfo := List.replicate 24 7, fdeFunctionStart := 8 }

/-! ## The bytes written by initializers -/

mutual
/-- The stores `initGlobal(offset, value)` makes, as (address offset, byte count) pairs: one
store per recognised leaf, of the width of the lvalue assigned in its branch. -/
def storeFootprint (sz : IRType → Int) : Int → IRConstant → List (Int × Nat)
  | offset, .struct _ values => fieldsFootprint sz offset values
  | offset, .int t _ =>
    match t with
    | .int32 => [(offset, 4)]
    | .int1 => [(offset, 4)]
    | .int64 => [(offset, 8)]
    | .int16 => [(offset, 2)]
    | .int8 => [(offset, 1)]
    | _ => []
  | offset, .fp t _ =>
    match t with
    | .float => [(offset, 4)]
    | .double => [(offset, 8)]
    | _ => []
  | offset, .function _ => [(offset, 8)]
  | _, .unknown _ => []
/-- The stores made by the field loop of `initGlobal`. -/
def fieldsFootprint (sz : IRType → Int) : Int → List IRConstant → List (Int × Nat)
  | _, [] => []
  | offset, svalue :: rest =>
    storeFootprint sz offset svalue ++ fieldsFootprint sz (offset + round8 (sz svalue.type)) rest
end

/-- The stores made by the initialisation loop of `compile` over laid-out variables. -/
def globalsFootprint (sz : IRType → Int) : List IRGlobalVariable → List (Int × Nat)
  | [] => []
  | var :: rest =>
    (match var.initialValue with
      | none => []
      | some value => storeFootprint sz var.globalsOffset value) ++ globalsFootprint sz rest

/-- The byte at offset `j` is covered by one of the stores. -/
def Written (stores : List (Int × Nat)) (j : Int) : Prop :=
  ∃ r ∈ stores, r.1 ≤ j ∧ j < r.1 + r.2

/-- Every store of the initializer of a variable lies inside the slot of the variable. -/
def InitializerFitsSlot (sz : IRType → Int) (v : IRGlobalVariable) : Prop :=
  ∀ c, v.initialValue = some c → ∀ r ∈ storeFootprint sz v.globalsOffset c,
    v.globalsOffset ≤ r.1 ∧ r.1 + r.2 ≤ v.globalsOffset + round8 (sz v.elementType)

/-- Two globals: an Int8 whose initializer is an aggregate of two Int64 constants, and an Int64
without initializer. -/
def exampleSpillGlobals : List IRGlobalVariable :=
  [{ name := "a", elementType := .int8,
     initialValue := some (.struct (.struct 0)
       [.int .int64 0, .int .int64 0xFFFFFFFFFFFFFFFF]) },
   { name := "b", elementType := .int64, initialValue := none }]

/-- Allocation sizes in which every struct type has 1 GiB and the other types their usual
size. -/
def exampleBigSizes : IRType → Int
  | .struct _ => 1073741824
  | t => allocSizeOf t

/-- Three globals: two structs of 1 GiB and an Int32. -/
def exampleBigGlobals : List IRGlobalVariable :=
  [{ name := "a", elementType := .struct 0, initialValue := none },
   { name := "b", elementType := .struct 1, initialValue := none },
   { name := "c", elementType := .int32, initialValue := none }]

/-- Five globals: four structs of 1 GiB and an Int32. -/
def exampleHugeGlobals : List IRGlobalVariable :=
  [{ name := "a", elementType := .struct 0, initialValue := none },
   { name := "b", elementType := .struct 1, initialValue := none },
   { name := "c", elementType := .struct 2, initialValue := none },
   { name := "d", elementType := .struct 3, initialValue := none },
   { name := "e", elementType := .int32, initialValue := none }]

/-- A relocation that leaves the memory alone and reports 2 MiB of relocated bytes. -/
def exampleRelocateBig (mem : Nat → Nat) (_ : Nat) : (Nat → Nat) × Nat := (mem, 2097152)

/-- A batch of 2 MiB of code with 24 bytes of unwind information. -/
def exampleBigUnixEmission : UnixEmission :=
  { codeSize := 2097152, unwindInfo := List.replicate 24 7, fdeFunctionStart := 8 }

/-! ## Lemmas on the byte vector -/

theorem length_setByte (g : List Nat) (i : Int) (b : Nat) :
    (setByte g i b).length = g.length := by
  unfold setByte
  split <;> simp

theorem length_storeBytes (bs : List Nat) : ∀ (g : List Nat) (off : Int),
    (storeBytes g off bs).length = g.length := by
  induction bs with
  | nil => intro g off; rfl
  | cons b bs ih =>
    intro g off
    simp only [storeBytes]
    rw [ih, length_setByte]

theorem byteAt_setByte_ne (g : List Nat) (i j : Int) (b : Nat) (h : j ≠ i) :
    byteAt (setByte g i b) j = byteAt g j := by
  unfold byteAt setByte
  by_cases hj : 0 ≤ j
  · by_cases hi : 0 ≤ i
    · have hne : i.toNat ≠ j.toNat := by omega
      simp only [hj, hi, if_true, List.getD_eq_getElem?_getD, List.getElem?_set_ne hne]
    · simp [hi]
  · simp [hj]

theorem byteAt_setByte_self (g : List Nat) (i : Int) (b : Nat) (h0 : 0 ≤ i)
    (h1 : i < g.length) : byteAt (setByte g i b) i = b := by
  unfold byteAt setByte
  have hlt : i.toNat < g.length := by omega
  simp [h0, List.getD_eq_getElem?_getD, List.getElem?_set_self, hlt]

theorem byteAt_storeBytes_outside (bs : List Nat) : ∀ (g : List Nat) (off j : Int),
    (j < off ∨ off + bs.length ≤ j) → byteAt (storeBytes g off bs) j = byteAt g j := by
  induction bs with
  | nil => intro g off j _; rfl
  | cons b bs ih =>
    intro g off j h
    simp only [storeBytes]
    rw [ih (setByte g off b) (off + 1) j (by simp only [List.length_cons] at h; omega)]
    exact byteAt_setByte_ne g off j b (by simp only [List.length_cons] at h; omega)

theorem loadLE_congr (n : Nat) : ∀ (g g' : List Nat) (off : Int),
    (∀ j, off ≤ j → j < off + n → byteAt g' j = byteAt g j) →
    loadLE g' off n = loadLE g off n := by
  induction n with
  | zero => intro g g' off _; rfl
  | succ n ih =>
    intro g g' off h
    simp only [loadLE]
    rw [h off (le_refl _) (by omega), ih g g' (off + 1) (fun j h1 h2 => h j (by omega) (by omega))]

theorem length_leBytes (n : Nat) : ∀ v, (leBytes n v).length = n := by
  induction n with
  | zero => intro v; rfl
  | succ n ih => intro v; simp [leBytes, ih]

theorem loadLE_storeBytes_leBytes (n : Nat) : ∀ (g : List Nat) (off : Int) (v : Nat),
    0 ≤ off → off + n ≤ g.length →
    loadLE (storeBytes g off (leBytes n v)) off n = v % 256 ^ n := by
  induction n with
  | zero => intro g off v _ _; simp [loadLE, Nat.mod_one]
  | succ n ih =>
    intro g off v h0 h1
    simp only [leBytes, storeBytes, loadLE]
    rw [ih (setByte g off (v % 256)) (off + 1) (v / 256) (by omega)
      (by rw [length_setByte]; push_cast at h1 ⊢; omega)]
    rw [byteAt_storeBytes_outside _ _ _ _ (Or.inl (by omega))]
    rw [byteAt_setByte_self g off _ h0 (by push_cast at h1; omega)]
    rw [pow_succ, mul_comm (256 ^ n) 256, Nat.mod_mul]

/-- A load is unaffected by a store to a disjoint range. -/
theorem loadLE_storeBytes_disjoint (g : List Nat) (off : Int) (bs : List Nat) (p : Int)
    (n : Nat) (h : p + n ≤ off ∨ off + bs.length ≤ p) :
    loadLE (storeBytes g off bs) p n = loadLE g p n := by
  apply loadLE_congr
  intro j h1 h2
  apply byteAt_storeBytes_outside
  omega

/-! ## Lemmas on the global layout -/

theorem round8_dvd (x : Int) : 8 ∣ round8 x := Dvd.intro_left _ rfl

theorem round8_ge (x : Int) (h : 0 ≤ x) : x ≤ round8 x ∧ round8 x < x + 8 := by
  unfold round8
  rw [Int.tdiv_eq_ediv (by omega) (by omega)]
  omega

theorem round8_nonneg (x : Int) (h : 0 ≤ x) : 0 ≤ round8 x := by
  have := round8_ge x h
  omega

theorem sumRound8_cons (sz : IRType → Int) (v : IRGlobalVariable) (vs : List IRGlobalVariable) :
    sumRound8 sz (v :: vs) = round8 (sz v.elementType) + sumRound8 sz vs := by
  simp [sumRound8]

theorem sumRound8_dvd (sz : IRType → Int) (vs : List IRGlobalVariable) :
    8 ∣ sumRound8 sz vs := by
  induction vs with
  | nil => simp [sumRound8]
  | cons v vs ih => rw [sumRound8_cons]; exact dvd_add (round8_dvd _) ih

theorem sumRound8_nonneg (sz : IRType → Int) (vs : List IRGlobalVariable)
    (h : ∀ v ∈ vs, 0 ≤ sz v.elementType) : 0 ≤ sumRound8 sz vs := by
  induction vs with
  | nil => simp [sumRound8]
  | cons v vs ih =>
    rw [sumRound8_cons]
    have h1 := round8_nonneg _ (h v (List.mem_cons_self _ _))
    have h2 := ih (fun w hw => h w (List.mem_cons_of_mem _ hw))
    omega

theorem sumRound8_take_le (sz : IRType → Int) (vs : List IRGlobalVariable)
    (h : ∀ v ∈ vs, 0 ≤ sz v.elementType) (k : Nat) :
    sumRound8 sz (vs.take k) ≤ sumRound8 sz vs := by
  induction vs generalizing k with
  | nil => simp
  | cons v vs ih =>
    cases k with
    | zero =>
      simp only [List.take_zero]
      have := sumRound8_nonneg sz (v :: vs) h
      simpa [sumRound8] using this
    | succ k =>
      simp only [List.take_succ_cons, sumRound8_cons]
      have := ih (fun w hw => h w (List.mem_cons_of_mem _ hw)) k
      omega

/-- The slot of the `i`-th global ends at or before the offset of every later global. -/
theorem sumRound8_take_slot (sz : IRType → Int) (vs : List IRGlobalVariable)
    (h : ∀ v ∈ vs, 0 ≤ sz v.elementType) (i j : Nat) (hij : i < j) (w : IRGlobalVariable)
    (hw : vs[i]? = some w) :
    sumRound8 sz (vs.take i) + round8 (sz w.elementType) ≤ sumRound8 sz (vs.take j) := by
  induction vs generalizing i j with
  | nil => simp at hw
  | cons v vs ih =>
    obtain ⟨j, rfl⟩ : ∃ j', j = j' + 1 := ⟨j - 1, by omega⟩
    have hrest : ∀ u ∈ vs, 0 ≤ sz u.elementType := fun u hu => h u (List.mem_cons_of_mem _ hu)
    cases i with
    | zero =>
      simp only [List.getElem?_cons_zero, Option.some.injEq] at hw
      subst hw
      simp only [List.take_zero, List.take_succ_cons, sumRound8_cons]
      have h1 : 0 ≤ sumRound8 sz (vs.take j) :=
        sumRound8_nonneg sz _ (fun u hu => hrest u (List.mem_of_mem_take hu))
      have h2 : sumRound8 sz [] = 0 := rfl
      omega
    | succ i =>
      simp only [List.getElem?_cons_succ] at hw
      simp only [List.take_succ_cons, sumRound8_cons]
      have := ih hrest i j (by omega) hw
      omega

theorem wrapInt_eq (x : Int) (h1 : -2147483648 ≤ x) (h2 : x ≤ intMax) : wrapInt x = x := by
  unfold wrapInt
  unfold intMax at h2
  omega

/-- One iteration of the layout loop when neither addition overflows. -/
theorem layoutGlobals_cons (sz : IRType → Int) (a : IRGlobalVariable)
    (rest : List IRGlobalVariable) (s : Int) (ha : 0 ≤ sz a.elementType) (hs : 0 ≤ s)
    (hfit : s + round8 (sz a.elementType) ≤ intMax) :
    layoutGlobals sz (a :: rest) s =
      ({ a with globalsOffset := s } ::
          (layoutGlobals sz rest (s + round8 (sz a.elementType))).1,
        (layoutGlobals sz rest (s + round8 (sz a.elementType))).2) := by
  have hr := round8_ge (sz a.elementType) ha
  obtain ⟨k, hk⟩ := round8_dvd (sz a.elementType)
  have h7 : wrapInt (sz a.elementType + 7) = sz a.elementType + 7 := by
    apply wrapInt_eq
    · omega
    · unfold intMax at hfit ⊢
      omega
  have hsum : wrapInt (s + round8 (sz a.elementType)) = s + round8 (sz a.elementType) := by
    apply wrapInt_eq
    · omega
    · exact hfit
  simp only [layoutGlobals, h7]
  rw [show Int.tdiv (sz a.elementType + 7) 8 * 8 = round8 (sz a.elementType) from rfl, hsum]

theorem layoutGlobals_total (sz : IRType → Int) (vs : List IRGlobalVariable) :
    ∀ s : Int, 0 ≤ s → (∀ v ∈ vs, 0 ≤ sz v.elementType) → s + sumRound8 sz vs ≤ intMax →
      (layoutGlobals sz vs s).2 = s + sumRound8 sz vs := by
  induction vs with
  | nil => intro s _ _ _; simp [layoutGlobals, sumRound8]
  | cons v vs ih =>
    intro s hs hnn hfit
    have hv := hnn v (List.mem_cons_self _ _)
    have hrest : ∀ u ∈ vs, 0 ≤ sz u.elementType := fun u hu => hnn u (List.mem_cons_of_mem _ hu)
    have h1 := round8_nonneg _ hv
    have h2 := sumRound8_nonneg sz vs hrest
    rw [sumRound8_cons] at hfit
    rw [layoutGlobals_cons sz v vs s hv hs (by omega), sumRound8_cons]
    simp only
    rw [ih _ (by omega) hrest (by omega)]
    omega

theorem layoutGlobals_length (sz : IRType → Int) (vs : List IRGlobalVariable) :
    ∀ s : Int, (layoutGlobals sz vs s).1.length = vs.length := by
  induction vs with
  | nil => intro s; rfl
  | cons v vs ih => intro s; simp [layoutGlobals, ih]

/-- When the layout does not overflow, the `k`-th laid-out variable is the `k`-th input variable
with its offset set to the start offset plus the rounded sizes of the variables before it. -/
theorem layoutGlobals_get (sz : IRType → Int) (vs : List IRGlobalVariable) :
    ∀ (s : Int), 0 ≤ s → (∀ v ∈ vs, 0 ≤ sz v.elementType) → s + sumRound8 sz vs ≤ intMax →
      ∀ (k : Nat) (v : IRGlobalVariable), (layoutGlobals sz vs s).1[k]? = some v →
      ∃ w, vs[k]? = some w ∧
        v = { w with globalsOffset := s + sumRound8 sz (vs.take k) } := by
  induction vs with
  | nil => intro s _ _ _ k v h; simp [layoutGlobals] at h
  | cons a vs ih =>
    intro s hs hnn hfit k v h
    have ha := hnn a (List.mem_cons_self _ _)
    have hrest : ∀ u ∈ vs, 0 ≤ sz u.elementType := fun u hu => hnn u (List.mem_cons_of_mem _ hu)
    have h1 := round8_nonneg _ ha
    have h2 := sumRound8_nonneg sz vs hrest
    rw [sumRound8_cons] at hfit
    rw [layoutGlobals_cons sz a vs s ha hs (by omega)] at h
    cases k with
    | zero =>
      simp only [List.getElem?_cons_zero, Option.some.injEq] at h
      refine ⟨a, by simp, ?_⟩
      simp [← h, sumRound8]
    | succ k =>
      simp only [List.getElem?_cons_succ] at h
      obtain ⟨w, hw, hv⟩ := ih _ (by omega) hrest (by omega) k v h
      refine ⟨w, by simpa using hw, ?_⟩
      rw [hv, List.take_succ_cons, sumRound8_cons, add_assoc]

/-! ## Lemmas on `initGlobal` -/

theorem unrecognised_struct_iff (t : IRType) (values : List IRConstant) :
    Unrecognised (.struct t values) ↔ ∃ c ∈ values, Unrecognised c := by
  constructor
  · intro h
    cases h with
    | field _ _ c hc hu => exact ⟨c, hc, hu⟩
  · rintro ⟨c, hc, hu⟩
    exact Unrecognised.field t values c hc hu

mutual
theorem initGlobal_error_iff_aux (sz : IRType → Int) (f32 : Nat → Nat)
    (table : List (IRFunction × Nat)) : ∀ (c : IRConstant) (g : List Nat) (offset : Int),
    (∃ e, JITRuntime.initGlobal sz f32 table g offset c = .error e) ↔ Unrecognised c
  | .struct t values, g, offset => by
    rw [JITRuntime.initGlobal, unrecognised_struct_iff]
    exact initGlobalFields_error_iff_aux sz f32 table values g offset
  | .int t v, g, offset => by
    constructor
    · intro h
      apply Unrecognised.int <;> rintro rfl <;> simp [JITRuntime.initGlobal] at h
    · intro h
      cases h with
      | int _ _ h1 h2 h3 h4 h5 => cases t <;> simp_all [JITRuntime.initGlobal]
  | .fp t v, g, offset => by
    constructor
    · intro h
      apply Unrecognised.fp <;> rintro rfl <;> simp [JITRuntime.initGlobal] at h
    · intro h
      cases h with
      | fp _ _ h1 h2 => cases t <;> simp_all [JITRuntime.initGlobal]
  | .function f, g, offset => by
    constructor
    · intro h
      simp [JITRuntime.initGlobal] at h
    · intro h
      cases h
  | .unknown t, g, offset => by
    constructor
    · intro _
      exact Unrecognised.unknown t
    · intro _
      exact ⟨_, by rw [JITRuntime.initGlobal]⟩
theorem initGlobalFields_error_iff_aux (sz : IRType → Int) (f32 : Nat → Nat)
    (table : List (IRFunction × Nat)) : ∀ (cs : List IRConstant) (g : List Nat) (offset : Int),
    (∃ e, JITRuntime.initGlobalFields sz f32 table g offset cs = .error e) ↔
      ∃ c ∈ cs, Unrecognised c
  | [], g, offset => by
    simp [JITRuntime.initGlobalFields]
  | c :: rest, g, offset => by
    have hc := initGlobal_error_iff_aux sz f32 table c g offset
    rw [JITRuntime.initGlobalFields]
    cases hres : JITRuntime.initGlobal sz f32 table g offset c with
    | error e =>
      have : Unrecognised c := hc.mp ⟨e, hres⟩
      simp only [List.mem_cons, exists_eq_or_imp]
      constructor
      · intro _
        exact Or.inl this
      · intro _
        exact ⟨e, rfl⟩
    | ok g' =>
      have hnot : ¬ Unrecognised c := by
        intro hu
        obtain ⟨e, he⟩ := hc.mpr hu
        rw [hres] at he
        cases he
      have ih := initGlobalFields_error_iff_aux sz f32 table rest g'
        (offset + round8 (sz c.type))
      simp only [List.mem_cons, exists_eq_or_imp]
      rw [ih]
      constructor
      · intro h
        exact Or.inr h
      · rintro (h | h)
        · exact absurd h hnot
        · exact h
end

theorem fieldsSize_cons (sz : IRType → Int) (c : IRConstant) (cs : List IRConstant) :
    fieldsSize sz (c :: cs) = round8 (sz c.type) + fieldsSize sz cs := by
  simp [fieldsSize]

theorem pow_256_eq (n : Nat) : 256 ^ n = 2 ^ (8 * n) := by
  rw [pow_mul]
  norm_num

/-- On a leaf constant `initGlobal` stores the low `byteWidth` bytes of the payload. -/
theorem initGlobal_leaf (sz : IRType → Int) (f32 : Nat → Nat) (table : List (IRFunction × Nat))
    (g : List Nat) (offset : Int) (c : IRConstant) (h : IsLeaf c) :
    JITRuntime.initGlobal sz f32 table g offset c =
      .ok (storeBytes g offset (leBytes (byteWidth c.type) c.payload)) := by
  cases c with
  | int t v =>
    rcases h with h | h | h | h <;> subst h <;>
      simp [JITRuntime.initGlobal, byteWidth, IRConstant.type, IRConstant.payload]
  | fp t v =>
    have ht : t = .double := h
    subst ht
    simp [JITRuntime.initGlobal, byteWidth, IRConstant.type, IRConstant.payload]
  | struct t vs => exact absurd h (by simp [IsLeaf])
  | function f => exact absurd h (by simp [IsLeaf])
  | unknown t => exact absurd h (by simp [IsLeaf])

/-- The field loop on leaf constants: it completes, keeps the length of the block, leaves the
bytes below the start offset alone, and every field reads back at its cursor position. -/
theorem initGlobalFields_leaves (sz : IRType → Int) (f32 : Nat → Nat)
    (table : List (IRFunction × Nat)) (fields : List IRConstant) :
    ∀ (g : List Nat) (offset : Int), 0 ≤ offset → offset + fieldsSize sz fields ≤ g.length →
      (∀ c ∈ fields, IsLeaf c) → (∀ c ∈ fields, (byteWidth c.type : Int) ≤ sz c.type) →
      ∃ g', JITRuntime.initGlobalFields sz f32 table g offset fields = .ok g' ∧
        g'.length = g.length ∧
        (∀ j, j < offset → byteAt g' j = byteAt g j) ∧
        ∀ (i : Nat) (c : IRConstant), fields[i]? = some c →
          loadLE g' (offset + fieldsSize sz (fields.take i)) (byteWidth c.type) =
            c.payload % 256 ^ byteWidth c.type := by
  induction fields with
  | nil =>
    intro g offset _ _ _ _
    exact ⟨g, rfl, rfl, fun _ _ => rfl, fun i c h => by simp at h⟩
  | cons a rest ih =>
    intro g offset h0 hfit hleaf hsz
    have ha := hsz a (List.mem_cons_self _ _)
    have hr := round8_ge (sz a.type) (by omega)
    rw [fieldsSize_cons] at hfit
    have hrest_nonneg : 0 ≤ fieldsSize sz rest := by
      have : ∀ cs : List IRConstant, (∀ c ∈ cs, (byteWidth c.type : Int) ≤ sz c.type) →
          0 ≤ fieldsSize sz cs := by
        intro cs
        induction cs with
        | nil => intro _; simp [fieldsSize]
        | cons c cs ihc =>
          intro hc
          rw [fieldsSize_cons]
          have h1 := round8_nonneg (sz c.type) (by have := hc c (List.mem_cons_self _ _); omega)
          have h2 := ihc (fun d hd => hc d (List.mem_cons_of_mem _ hd))
          omega
      exact this rest (fun c hc => hsz c (List.mem_cons_of_mem _ hc))
    obtain ⟨g', hg', hlen, hframe, hread⟩ :=
      ih (storeBytes g offset (leBytes (byteWidth a.type) a.payload))
        (offset + round8 (sz a.type)) (by omega)
        (by rw [length_storeBytes]; omega)
        (fun c hc => hleaf c (List.mem_cons_of_mem _ hc))
        (fun c hc => hsz c (List.mem_cons_of_mem _ hc))
    refine ⟨g', ?_, ?_, ?_, ?_⟩
    · rw [JITRuntime.initGlobalFields, initGlobal_leaf sz f32 table g offset a
        (hleaf a (List.mem_cons_self _ _))]
      exact hg'
    · rw [hlen, length_storeBytes]
    · intro j hj
      rw [hframe j (by omega)]
      exact byteAt_storeBytes_outside _ _ _ _ (Or.inl hj)
    · intro i c hc
      cases i with
      | zero =>
        simp only [List.getElem?_cons_zero, Option.some.injEq] at hc
        subst hc
        have h1 : loadLE g' offset (byteWidth a.type) =
            loadLE (storeBytes g offset (leBytes (byteWidth a.type) a.payload)) offset
              (byteWidth a.type) :=
          loadLE_congr _ _ _ _ (fun j _ hj2 => hframe j (by omega))
        have h2 : offset + fieldsSize sz (List.take 0 (a :: rest)) = offset := by
          simp [fieldsSize]
        rw [h2, h1]
        exact loadLE_storeBytes_leBytes _ _ _ _ h0 (by omega)
      | succ i =>
        simp only [List.getElem?_cons_succ] at hc
        have := hread i c hc
        rw [List.take_succ_cons, fieldsSize_cons, ← add_assoc]
        exact this

/-! ## Lemmas on `compile` -/

theorem length_resize (g : List Nat) (n : Nat) : (resize g n).length = n := by
  simp only [resize, List.length_append, List.length_take, List.length_replicate]
  omega

/-- What a successful `compile` has done. -/
theorem compile_ok_inv (sz : IRType → Int) (f32 : Nat → Nat)
    (add : MachineCodeHolder → JitMemory → Except Fault JitMemory) (rt : JITRuntime)
    (functions : List IRFunction) (vars : List IRGlobalVariable)
    (globalMappings : List (IRValue × Nat)) (rt' : JITRuntime) (vs : List IRGlobalVariable)
    (h : JITRuntime.compile sz f32 add rt functions vars globalMappings = .ok (rt', vs)) :
    0 ≤ (layoutGlobals sz vars 0).2 ∧ vs = (layoutGlobals sz vars 0).1 ∧
      rt'.functionTable = rt.functionTable ∧
      add (fillCodeHolder functions globalMappings) rt.mem = .ok rt'.mem ∧
      initGlobals sz f32 rt.functionTable
        (resize rt.globals (layoutGlobals sz vars 0).2.toNat)
        (layoutGlobals sz vars 0).1 = .ok rt'.globals := by
  unfold JITRuntime.compile at h
  simp only at h
  split at h
  · cases h
  · rename_i hneg
    split at h
    · cases h
    · rename_i mem hadd
      split at h
      · cases h
      · rename_i globals' hinit
        simp only [Except.ok.injEq, Prod.mk.injEq] at h
        obtain ⟨h1, h2⟩ := h
        subst h1 h2
        exact ⟨by omega, rfl, rfl, hadd, hinit⟩

mutual
theorem initGlobal_length (sz : IRType → Int) (f32 : Nat → Nat)
    (table : List (IRFunction × Nat)) : ∀ (c : IRConstant) (g g' : List Nat) (offset : Int),
    JITRuntime.initGlobal sz f32 table g offset c = .ok g' → g'.length = g.length
  | .struct t values, g, g', offset => by
    intro h
    rw [JITRuntime.initGlobal] at h
    exact initGlobalFields_length sz f32 table values g g' offset h
  | .int t v, g, g', offset => by
    intro h
    cases t <;> simp [JITRuntime.initGlobal] at h <;> subst h <;> exact length_storeBytes _ _ _
  | .fp t v, g, g', offset => by
    intro h
    cases t <;> simp [JITRuntime.initGlobal] at h <;> subst h <;> exact length_storeBytes _ _ _
  | .function f, g, g', offset => by
    intro h
    simp only [JITRuntime.initGlobal, Except.ok.injEq] at h
    subst h
    exact length_storeBytes _ _ _
  | .unknown t, g, g', offset => by
    intro h
    simp [JITRuntime.initGlobal] at h
theorem initGlobalFields_length (sz : IRType → Int) (f32 : Nat → Nat)
    (table : List (IRFunction × Nat)) : ∀ (cs : List IRConstant) (g g' : List Nat) (offset : Int),
    JITRuntime.initGlobalFields sz f32 table g offset cs = .ok g' → g'.length = g.length
  | [], g, g', offset => by
    intro h
    simp only [JITRuntime.initGlobalFields, Except.ok.injEq] at h
    rw [h]
  | c :: rest, g, g', offset => by
    intro h
    rw [JITRuntime.initGlobalFields] at h
    cases hres : JITRuntime.initGlobal sz f32 table g offset c with
    | error e => rw [hres] at h; cases h
    | ok g1 =>
      rw [hres] at h
      have h1 := initGlobal_length sz f32 table c g g1 offset hres
      have h2 := initGlobalFields_length sz f32 table rest g1 g' _ h
      rw [h2, h1]
end

theorem initGlobals_length (sz : IRType → Int) (f32 : Nat → Nat)
    (table : List (IRFunction × Nat)) (vs : List IRGlobalVariable) :
    ∀ (g g' : List Nat), initGlobals sz f32 table g vs = .ok g' → g'.length = g.length := by
  induction vs with
  | nil =>
    intro g g' h
    simp only [initGlobals, Except.ok.injEq] at h
    rw [h]
  | cons a rest ih =>
    intro g g' h
    rw [initGlobals] at h
    cases hinit : a.initialValue with
    | none =>
      simp only [hinit] at h
      exact ih g g' h
    | some c =>
      simp only [hinit] at h
      cases hres : JITRuntime.initGlobal sz f32 table g a.globalsOffset c with
      | error e => rw [hres] at h; cases h
      | ok g1 =>
        rw [hres] at h
        rw [ih g1 g' h, initGlobal_length sz f32 table c g g1 _ hres]

/-! ## Global layout -/

theorem layoutGlobals_get_of_input (sz : IRType → Int) (vs : List IRGlobalVariable) (s : Int)
    (hs : 0 ≤ s) (hnn : ∀ v ∈ vs, 0 ≤ sz v.elementType) (hfit : s + sumRound8 sz vs ≤ intMax)
    (k : Nat) (w : IRGlobalVariable) (h : vs[k]? = some w) :
    (layoutGlobals sz vs s).1[k]? =
      some { w with globalsOffset := s + sumRound8 sz (vs.take k) } := by
  have hk : k < (layoutGlobals sz vs s).1.length := by
    rw [layoutGlobals_length]
    exact (List.getElem?_eq_some.mp h).1
  obtain ⟨v, hv⟩ : ∃ v, (layoutGlobals sz vs s).1[k]? = some v :=
    ⟨_, List.getElem?_eq_getElem hk⟩
  obtain ⟨w', hw', hv'⟩ := layoutGlobals_get sz vs s hs hnn hfit k v hv
  rw [h] at hw'
  injection hw' with hw'
  subst hw'
  rw [hv, hv']

/-- C1, as stated, fails: for two globals of 1 GiB followed by an Int32, all of non-negative
size, the 32-bit `int` cursor overflows at the third global: its offset is `-2147483648`, below
the offset `1073741824` of the second global and different from the sum `2147483648` of the
rounded sizes before it. -/
theorem layoutGlobals_offset_overflows :
    (∀ v ∈ exampleBigGlobals, 0 ≤ exampleBigSizes v.elementType) ∧
      (layoutGlobals exampleBigSizes exampleBigGlobals 0).1.map (fun v => v.globalsOffset) =
        [0, 1073741824, -2147483648] ∧
      sumRound8 exampleBigSizes (exampleBigGlobals.take 2) = 2147483648 ∧
      ¬ ((1073741824 : Int) ≤ -2147483648) := by
  refine ⟨by decide, by decide, by decide, by decide⟩

/-- C1 as amended: global layout in `compile`. For globals with non-negative pointee allocation
sizes whose 8-byte-rounded sizes sum to at most `INT_MAX`, taken in iteration order: every input
global gets exactly one laid-out entry at its position, with its name, type and initializer
unchanged; the offset assigned to the `k`-th global is the sum of the 8-byte-rounded sizes of
the globals before it and is a multiple of 8; offsets are non-decreasing in iteration order;
the slots `[offset, offset + round8 size)` of two distinct globals have no byte in common; and
a successful `compile` returns exactly these variables. -/
theorem compile_global_layout (sz : IRType → Int) (vars : List IRGlobalVariable)
    (hnn : ∀ v ∈ vars, 0 ≤ sz v.elementType) (hfits : sumRound8 sz vars ≤ intMax) :
    (layoutGlobals sz vars 0).1.length = vars.length ∧
    (∀ (k : Nat) (w : IRGlobalVariable), vars[k]? = some w →
        ∃ v, (layoutGlobals sz vars 0).1[k]? = some v ∧ v.name = w.name ∧
          v.elementType = w.elementType ∧ v.initialValue = w.initialValue ∧
          v.globalsOffset = sumRound8 sz (vars.take k) ∧ 8 ∣ v.globalsOffset) ∧
    (∀ (i j : Nat) (vi vj : IRGlobalVariable), i ≤ j →
        (layoutGlobals sz vars 0).1[i]? = some vi → (layoutGlobals sz vars 0).1[j]? = some vj →
        vi.globalsOffset ≤ vj.globalsOffset) ∧
    (∀ (i j : Nat) (vi vj : IRGlobalVariable), i ≠ j →
        (layoutGlobals sz vars 0).1[i]? = some vi → (layoutGlobals sz vars 0).1[j]? = some vj →
        ∀ x : Int, ¬ (vi.globalsOffset ≤ x ∧ x < vi.globalsOffset + round8 (sz vi.elementType) ∧
          vj.globalsOffset ≤ x ∧ x < vj.globalsOffset + round8 (sz vj.elementType))) ∧
    (∀ (f32 : Nat → Nat) (add : MachineCodeHolder → JitMemory → Except Fault JitMemory)
        (rt rt' : JITRuntime) (functions : List IRFunction) (maps : List (IRValue × Nat))
        (vs : List IRGlobalVariable),
        JITRuntime.compile sz f32 add rt functions vars maps = .ok (rt', vs) →
        vs = (layoutGlobals sz vars 0).1) := by
  have hfit0 : (0 : Int) + sumRound8 sz vars ≤ intMax := by omega
  have key : ∀ (k : Nat) (v : IRGlobalVariable), (layoutGlobals sz vars 0).1[k]? = some v →
      ∃ w, vars[k]? = some w ∧ v.elementType = w.elementType ∧
        v.globalsOffset = sumRound8 sz (vars.take k) := by
    intro k v h
    obtain ⟨w, hw, hv⟩ := layoutGlobals_get sz vars 0 (le_refl 0) hnn hfit0 k v h
    refine ⟨w, hw, ?_, ?_⟩
    · rw [hv]
    · rw [hv]
      simp
  have slot : ∀ (i j : Nat) (vi vj : IRGlobalVariable), i < j →
      (layoutGlobals sz vars 0).1[i]? = some vi → (layoutGlobals sz vars 0).1[j]? = some vj →
      vi.globalsOffset + round8 (sz vi.elementType) ≤ vj.globalsOffset := by
    intro i j vi vj hij hi hj
    obtain ⟨wi, hwi, hti, hoi⟩ := key i vi hi
    obtain ⟨wj, _, _, hoj⟩ := key j vj hj
    rw [hoi, hoj, hti]
    exact sumRound8_take_slot sz vars hnn i j hij wi hwi
  have rnn : ∀ (i : Nat) (vi : IRGlobalVariable), (layoutGlobals sz vars 0).1[i]? = some vi →
      0 ≤ round8 (sz vi.elementType) := by
    intro i vi hi
    obtain ⟨wi, hwi, hti, _⟩ := key i vi hi
    rw [hti]
    exact round8_nonneg _ (hnn wi (List.getElem?_mem hwi))
  refine ⟨layoutGlobals_length sz vars 0, ?_, ?_, ?_, ?_⟩
  · intro k w hw
    refine ⟨_, layoutGlobals_get_of_input sz vars 0 (le_refl 0) hnn hfit0 k w hw, rfl, rfl, rfl,
      ?_, ?_⟩
    · simp
    · show 8 ∣ 0 + sumRound8 sz (vars.take k)
      rw [zero_add]
      exact sumRound8_dvd sz _
  · intro i j vi vj hij hi hj
    rcases Nat.eq_or_lt_of_le hij with heq | hlt
    · subst heq
      rw [hi] at hj
      injection hj with hj
      rw [hj]
    · have h1 := slot i j vi vj hlt hi hj
      have h2 := rnn i vi hi
      omega
  · intro i j vi vj hne hi hj x hx
    rcases Nat.lt_or_gt_of_ne hne with hlt | hgt
    · have := slot i j vi vj hlt hi hj
      omega
    · have := slot j i vj vi hgt hj hi
      omega
  · intro f32 add rt rt' functions maps vs h
    exact (compile_ok_inv sz f32 add rt functions vars maps rt' vs h).2.1

/-- C1 as amended, at three globals of types Int32, Double and Int8 with the usual sizes: the
third global keeps its name and is laid out at offset 16, the sum of the rounded sizes of the
first two. -/
theorem compile_global_layout_witness :
    (∀ v ∈ exampleGlobals, 0 ≤ allocSizeOf v.elementType) ∧
      sumRound8 allocSizeOf exampleGlobals ≤ intMax ∧
      ∃ v, (layoutGlobals allocSizeOf exampleGlobals 0).1[2]? = some v ∧ v.name = "c" ∧
        v.elementType = .int8 ∧ v.globalsOffset = 16 ∧ 8 ∣ v.globalsOffset := by
  obtain ⟨v, h1, h2, h3, _, h5, h6⟩ :=
    (compile_global_layout allocSizeOf exampleGlobals (by decide) (by decide)).2.1 2
      { name := "c", elementType := .int8, initialValue := none } rfl
  exact ⟨by decide, by decide, v, h1, h2, h3, by rw [h5]; decide, h6⟩

/-! ## Global initialisation -/

/-- C3: aggregate round trip. For a struct constant whose fields are integer constants of
width 8/16/32/64 or double constants, each of a type whose allocation size is at least its
width, written at an offset where the block has room for all fields, `initGlobal` completes and
the `i`-th field read back at `offset` plus the rounded sizes of the fields before it, at its
declared width, is its payload modulo `2^w`; for a double it is the 64-bit pattern itself. The
read is made after all fields are written, so later fields do not overwrite earlier ones. -/
theorem initGlobal_struct_round_trip (sz : IRType → Int) (f32 : Nat → Nat)
    (table : List (IRFunction × Nat)) (g : List Nat) (offset : Int) (t : IRType)
    (fields : List IRConstant)
    (hleaf : ∀ c ∈ fields, IsLeaf c)
    (hsz : ∀ c ∈ fields, (byteWidth c.type : Int) ≤ sz c.type)
    (h0 : 0 ≤ offset) (hfit : offset + fieldsSize sz fields ≤ g.length) :
    ∃ g', JITRuntime.initGlobal sz f32 table g offset (.struct t fields) = .ok g' ∧
      g'.length = g.length ∧
      (∀ (i : Nat) (c : IRConstant), fields[i]? = some c →
        loadLE g' (offset + fieldsSize sz (fields.take i)) (byteWidth c.type) =
          c.payload % 2 ^ (8 * byteWidth c.type)) ∧
      (∀ (i : Nat) (v : Nat), fields[i]? = some (.fp .double v) → v < 2 ^ 64 →
        loadLE g' (offset + fieldsSize sz (fields.take i)) 8 = v) := by
  obtain ⟨g', hg', hlen, _, hread⟩ :=
    initGlobalFields_leaves sz f32 table fields g offset h0 hfit hleaf hsz
  refine ⟨g', ?_, hlen, ?_, ?_⟩
  · rw [JITRuntime.initGlobal]
    exact hg'
  · intro i c hc
    rw [← pow_256_eq]
    exact hread i c hc
  · intro i v hc hv
    have := hread i _ hc
    simp only [IRConstant.type, byteWidth, IRConstant.payload] at this
    rw [this]
    exact Nat.mod_eq_of_lt (by norm_num at hv ⊢; exact hv)

/-- C3 at the aggregate `{Int32 0xCAFEBABE, Double 3.5}` written at offset 0 of a 16-byte block:
the 32-bit read at offset 0 is `0xCAFEBABE` and the 64-bit read at offset 8 is the pattern of
`3.5`. -/
theorem initGlobal_struct_round_trip_witness :
    ∃ g', JITRuntime.initGlobal allocSizeOf id [] (List.replicate 16 0) 0
        (.struct (.struct 0) exampleFields) = .ok g' ∧
      loadLE g' 0 4 = 0xCAFEBABE ∧ loadLE g' 8 8 = 0x400C000000000000 := by
  obtain ⟨g', h1, _, h2, h3⟩ := initGlobal_struct_round_trip allocSizeOf id []
    (List.replicate 16 0) 0 (.struct 0) exampleFields
    (by
      intro c hc
      simp only [exampleFields, List.mem_cons, List.mem_singleton, List.not_mem_nil,
        or_false] at hc
      rcases hc with rfl | rfl <;> simp [IsLeaf])
    (by
      intro c hc
      simp only [exampleFields, List.mem_cons, List.mem_singleton, List.not_mem_nil,
        or_false] at hc
      rcases hc with rfl | rfl <;> simp [IRConstant.type, byteWidth, allocSizeOf])
    (le_refl 0) (by decide)
  refine ⟨g', h1, ?_, ?_⟩
  · have := h2 0 (.int .int32 0xCAFEBABE) rfl
    simpa [fieldsSize, IRConstant.type, byteWidth, IRConstant.payload] using this
  · have := h3 1 0x400C000000000000 rfl (by norm_num)
    have hoff : (0 : Int) + fieldsSize allocSizeOf (exampleFields.take 1) = 8 := by decide
    rw [hoff] at this
    exact this

/-- C4, as stated, fails for Int1: on a block of four `0xFF` bytes an Int1 constant `1`
written at offset 0 changes the bytes at offsets 1, 2 and 3, outside the single byte of the
declared width. -/
theorem initGlobal_int1_changes_four_bytes :
    JITRuntime.initGlobal allocSizeOf id [] [255, 255, 255, 255] 0 (.int .int1 1) =
        .ok [1, 0, 0, 0] ∧
      byteAt [1, 0, 0, 0] 1 ≠ byteAt [255, 255, 255, 255] 1 := by
  constructor
  · rfl
  · decide

/-- C4 as amended: for an integer constant of type Int1/Int8/Int16/Int32/Int64 and a store
that lies inside the block, `initGlobal` completes, keeps the length of the block, changes no
byte outside the `n` bytes starting at `offset`, where `n` is 4 for Int1 and Int32, 1 for Int8,
2 for Int16 and 8 for Int64, and these `n` bytes hold the payload modulo `2^(8n)`. -/
theorem initGlobal_int_fixed_width (sz : IRType → Int) (f32 : Nat → Nat)
    (table : List (IRFunction × Nat)) (g : List Nat) (offset : Int) (t : IRType) (v : Nat)
    (ht : IsIntType t) (h0 : 0 ≤ offset) (hfit : offset + intStoreBytes t ≤ g.length) :
    ∃ g', JITRuntime.initGlobal sz f32 table g offset (.int t v) = .ok g' ∧
      g'.length = g.length ∧
      (∀ j : Int, j < offset ∨ offset + intStoreBytes t ≤ j → byteAt g' j = byteAt g j) ∧
      loadLE g' offset (intStoreBytes t) = v % 2 ^ (8 * intStoreBytes t) := by
  refine ⟨storeBytes g offset (leBytes (intStoreBytes t) v), ?_, length_storeBytes _ _ _, ?_, ?_⟩
  · rcases ht with h | h | h | h | h <;> subst h <;> rfl
  · intro j hj
    apply byteAt_storeBytes_outside
    rw [length_leBytes]
    exact hj
  · rw [← pow_256_eq]
    exact loadLE_storeBytes_leBytes _ _ _ _ h0 hfit

/-- C4 as amended, at an Int1 constant written at offset 4 of an 8-byte block. -/
theorem initGlobal_int_fixed_width_witness :
    IsIntType .int1 ∧
      ∃ g', JITRuntime.initGlobal allocSizeOf id [] (List.replicate 8 255) 4 (.int .int1 1) =
          .ok g' ∧
        g'.length = (List.replicate 8 255).length ∧
        (∀ j : Int, j < 4 ∨ 4 + intStoreBytes .int1 ≤ j →
          byteAt g' j = byteAt (List.replicate 8 255) j) ∧
        loadLE g' 4 (intStoreBytes .int1) = 1 % 2 ^ (8 * intStoreBytes .int1) :=
  ⟨Or.inl rfl, initGlobal_int_fixed_width allocSizeOf id [] (List.replicate 8 255) 4 .int1 1
    (Or.inl rfl) (by decide) (by decide)⟩

/-! ## The bump allocator -/

/-- A request of at most 1 MiB that exceeds the remaining space (without wrapping around) gets a
new 1 MiB block and its region lies inside that block. -/
theorem allocJitMemory_new_block_fits (virtualAlloc : Nat → Option Nat) (m : JitMemory)
    (size base : Nat) (hwrap : m.blockPos + size < sizeMod)
    (hexceeds : m.blockPos + size > m.blockSize) (hsmall : size ≤ 1024 * 1024)
    (halloc : virtualAlloc (1024 * 1024) = some base) :
    ∃ m', allocJitMemory virtualAlloc m size = .ok (base, m') ∧
      m'.blocks = m.blocks ++ [base] ∧ m'.blockSize = 1024 * 1024 ∧ m'.blockPos = size ∧
      base + size ≤ base + m'.blockSize := by
  refine ⟨{ m with blocks := m.blocks ++ [base], blockSize := 1024 * 1024, blockPos := size },
    ?_, rfl, rfl, rfl, ?_⟩
  · unfold allocJitMemory
    rw [Nat.mod_eq_of_lt hwrap, if_neg (by omega)]
    simp only [halloc]
  · show base + size ≤ base + 1024 * 1024
    omega

/-- C5 at the failing input: from the initial state a request of 1 MiB + 1 bytes makes
`allocJitMemory` ask the operating system for exactly 1 MiB, so the returned region ends one
byte past the end of the new block and `blockPos` is left above `blockSize`; the reuse branch
guards `blockPos + size <= blockSize`, the allocation branch has no guard. For a request of at
most 1 MiB the new block does hold the region. -/
theorem allocJitMemory_oversize_block_too_small :
    allocJitMemory exampleAlloc {} (1024 * 1024 + 1) =
        .ok (4096, { blocks := [4096], blockPos := 1024 * 1024 + 1,
                     blockSize := 1024 * 1024, frames := [] }) ∧
      ¬ (4096 + (1024 * 1024 + 1) ≤ 4096 + 1024 * 1024) ∧
      ¬ (1024 * 1024 + 1 ≤ 1024 * 1024) ∧
      ∀ (virtualAlloc : Nat → Option Nat) (m : JitMemory) (size base : Nat),
        m.blockPos + size < sizeMod → m.blockPos + size > m.blockSize → size ≤ 1024 * 1024 →
        virtualAlloc (1024 * 1024) = some base →
        ∃ m', allocJitMemory virtualAlloc m size = .ok (base, m') ∧
          m'.blocks = m.blocks ++ [base] ∧ m'.blockSize = 1024 * 1024 ∧ m'.blockPos = size ∧
          base + size ≤ base + m'.blockSize := by
  refine ⟨rfl, by decide, by decide, ?_⟩
  intro virtualAlloc m size base h1 h2 h3 h4
  exact allocJitMemory_new_block_fits virtualAlloc m size base h1 h2 h3 h4

/-- C6: exact fit. In a state with at least one block, for a request with
`blockPos + size = blockSize`, `allocJitMemory` returns the base of the last block plus the old
`blockPos`, leaves the block list (and `blockSize`, `frames`) unchanged without calling the
operating system, and sets `blockPos` to `blockSize`. -/
theorem allocJitMemory_exact_fit (virtualAlloc : Nat → Option Nat) (m : JitMemory) (size : Nat)
    (hne : m.blocks ≠ []) (hsize : m.blockSize < sizeMod)
    (hfit : m.blockPos + size = m.blockSize) :
    allocJitMemory virtualAlloc m size =
      .ok (m.blocks.getLast hne + m.blockPos,
        { blocks := m.blocks, blockPos := m.blockSize, blockSize := m.blockSize,
          frames := m.frames }) := by
  unfold allocJitMemory
  rw [hfit, Nat.mod_eq_of_lt hsize, if_pos (le_refl _), List.getLast?_eq_getLast _ hne]

/-- C6 at a state with two blocks, `blockPos = 1048000` and a request of the remaining 576
bytes; the operating system would refuse any allocation. -/
theorem allocJitMemory_exact_fit_witness :
    allocJitMemory (fun _ => none)
        { blocks := [4096, 65536], blockPos := 1048000, blockSize := 1048576, frames := [] }
        576 =
      .ok (65536 + 1048000,
        { blocks := [4096, 65536], blockPos := 1048576, blockSize := 1048576, frames := [] }) :=
  allocJitMemory_exact_fit (fun _ => none)
    { blocks := [4096, 65536], blockPos := 1048000, blockSize := 1048576, frames := [] } 576
    (by decide) (by decide) rfl

/-! ## Function addresses -/

/-- C7 at the failing input: on a fresh runtime, `compile` with no functions, no globals and
the mapping table `{(f, 4096)}` passes the binding to the code holder and returns, but no
statement of `compile` or `add` writes `functionTable`, so `getPointerToFunction(f)` is
`nullptr` and not `4096`, whatever the placement step does. -/
theorem compile_mapping_not_recorded :
    fillCodeHolder [] [(.function exampleFunction, 4096)] =
        [HolderEntry.external exampleFunction 4096] ∧
      (∃ rt' vs, JITRuntime.compile allocSizeOf id addWin32 {} [] []
          [(.function exampleFunction, 4096)] = .ok (rt', vs) ∧
        rt'.getPointerToFunction exampleFunction = 0) ∧
      ∀ (add : MachineCodeHolder → JitMemory → Except Fault JitMemory) (rt' : JITRuntime)
        (vs : List IRGlobalVariable),
        JITRuntime.compile allocSizeOf id add {} [] [] [(.function exampleFunction, 4096)] =
          .ok (rt', vs) →
        rt'.getPointerToFunction exampleFunction = 0 := by
  refine ⟨rfl, ⟨{}, [], rfl, rfl⟩, ?_⟩
  intro add rt' vs h
  have := (compile_ok_inv _ _ _ _ _ _ _ _ _ h).2.2.1
  unfold JITRuntime.getPointerToFunction
  rw [this]
  rfl

/-! ## Unrecognised initializers -/

mutual
theorem initGlobal_error_what (sz : IRType → Int) (f32 : Nat → Nat)
    (table : List (IRFunction × Nat)) : ∀ (c : IRConstant) (g : List Nat) (offset : Int)
    (e : Fault), JITRuntime.initGlobal sz f32 table g offset c = .error e →
      e = .runtimeError "Unknown IRConstantInt type" ∨
      e = .runtimeError "Unknown IRConstantFP type" ∨
      e = .runtimeError "Unknown IRConstant type"
  | .struct t values, g, offset, e => by
    intro h
    rw [JITRuntime.initGlobal] at h
    exact initGlobalFields_error_what sz f32 table values g offset e h
  | .int t v, g, offset, e => by
    intro h
    cases t <;> simp [JITRuntime.initGlobal] at h <;> exact Or.inl h.symm
  | .fp t v, g, offset, e => by
    intro h
    cases t <;> simp [JITRuntime.initGlobal] at h <;> exact Or.inr (Or.inl h.symm)
  | .function f, g, offset, e => by
    intro h
    simp [JITRuntime.initGlobal] at h
  | .unknown t, g, offset, e => by
    intro h
    simp only [JITRuntime.initGlobal, Except.error.injEq] at h
    exact Or.inr (Or.inr h.symm)
theorem initGlobalFields_error_what (sz : IRType → Int) (f32 : Nat → Nat)
    (table : List (IRFunction × Nat)) : ∀ (cs : List IRConstant) (g : List Nat) (offset : Int)
    (e : Fault), JITRuntime.initGlobalFields sz f32 table g offset cs = .error e →
      e = .runtimeError "Unknown IRConstantInt type" ∨
      e = .runtimeError "Unknown IRConstantFP type" ∨
      e = .runtimeError "Unknown IRConstant type"
  | [], g, offset, e => by
    intro h
    simp [JITRuntime.initGlobalFields] at h
  | c :: rest, g, offset, e => by
    intro h
    rw [JITRuntime.initGlobalFields] at h
    cases hres : JITRuntime.initGlobal sz f32 table g offset c with
    | error e' =>
      rw [hres] at h
      simp only [Except.error.injEq] at h
      subst h
      exact initGlobal_error_what sz f32 table c g offset e' hres
    | ok g1 =>
      rw [hres] at h
      exact initGlobalFields_error_what sz f32 table rest g1 _ e h
end

/-- C8: `initGlobal` throws if and only if the constant tree contains an integer constant
whose type is none of Int1/Int8/Int16/Int32/Int64, a floating-point constant whose type is
neither Float nor Double, or a constant that is none of struct / int / FP / function (the
depth-first walk in field order reaches the first such node); the exception is one of the three
`runtime_error`s of the source; on every other tree, the empty struct included, it completes. -/
theorem initGlobal_throws_iff_unrecognised (sz : IRType → Int) (f32 : Nat → Nat)
    (table : List (IRFunction × Nat)) (g : List Nat) (offset : Int) (c : IRConstant) :
    ((∃ e, JITRuntime.initGlobal sz f32 table g offset c = .error e) ↔ Unrecognised c) ∧
    ((∃ g', JITRuntime.initGlobal sz f32 table g offset c = .ok g') ↔ ¬ Unrecognised c) ∧
    (∀ e, JITRuntime.initGlobal sz f32 table g offset c = .error e →
      e = .runtimeError "Unknown IRConstantInt type" ∨
      e = .runtimeError "Unknown IRConstantFP type" ∨
      e = .runtimeError "Unknown IRConstant type") ∧
    (∀ t, JITRuntime.initGlobal sz f32 table g offset (.struct t []) = .ok g) := by
  have hiff := initGlobal_error_iff_aux sz f32 table c g offset
  refine ⟨hiff, ?_, initGlobal_error_what sz f32 table c g offset, ?_⟩
  · rw [← hiff]
    cases hres : JITRuntime.initGlobal sz f32 table g offset c with
    | error e => simp
    | ok g' => simp
  · intro t
    rw [JITRuntime.initGlobal, JITRuntime.initGlobalFields]

/-! ## Size of the storage block -/

/-- C9, as stated, fails: for four globals of 1 GiB followed by an Int32 the 32-bit `int`
cursor wraps around to 8, so `compile` on a fresh runtime returns with a storage block of 8
bytes, while the rounded sizes sum to 4294967304; the first global is laid out at offset 0 with
a slot of 1 GiB, which does not lie inside the block. -/
theorem compile_storage_block_wraps :
    JITRuntime.compile exampleBigSizes id addWin32 {} [] exampleHugeGlobals [] =
        .ok ({ globals := [0, 0, 0, 0, 0, 0, 0, 0] },
          (layoutGlobals exampleBigSizes exampleHugeGlobals 0).1) ∧
      sumRound8 exampleBigSizes exampleHugeGlobals = 4294967304 ∧
      (layoutGlobals exampleBigSizes exampleHugeGlobals 0).1.map (fun v => v.globalsOffset) =
        [0, 1073741824, -2147483648, -1073741824, 0] ∧
      ¬ ((0 : Int) + round8 (exampleBigSizes (.struct 0)) ≤
        (([0, 0, 0, 0, 0, 0, 0, 0] : List Nat).length : Int)) := by
  refine ⟨rfl, by decide, by decide, by decide⟩

/-- C9 as amended: after a successful `compile` on globals with non-negative allocation sizes
whose 8-byte-rounded sizes sum to at most `INT_MAX`, the length of the storage block is the sum
over all globals of the 8-byte-rounded pointee allocation size, the slot
`[globalsOffset, globalsOffset + round8 size)` of every global lies inside the block, and
`getPointerToGlobal` points into the block for every global of non-zero size. -/
theorem compile_storage_block_size (sz : IRType → Int) (f32 : Nat → Nat)
    (add : MachineCodeHolder → JitMemory → Except Fault JitMemory) (rt rt' : JITRuntime)
    (functions : List IRFunction) (vars vs : List IRGlobalVariable)
    (maps : List (IRValue × Nat)) (data : Int)
    (hnn : ∀ v ∈ vars, 0 ≤ sz v.elementType) (hfits : sumRound8 sz vars ≤ intMax)
    (hok : JITRuntime.compile sz f32 add rt functions vars maps = .ok (rt', vs)) :
    (rt'.globals.length : Int) = sumRound8 sz vars ∧
      vs.length = vars.length ∧
      ∀ var ∈ vs, 0 ≤ var.globalsOffset ∧
        var.globalsOffset + round8 (sz var.elementType) ≤ rt'.globals.length ∧
        data ≤ JITRuntime.getPointerToGlobal data var ∧
        (0 < sz var.elementType →
          JITRuntime.getPointerToGlobal data var < data + rt'.globals.length) := by
  obtain ⟨htot, hvs, _, _, hinit⟩ := compile_ok_inv sz f32 add rt functions vars maps rt' vs hok
  have hfit0 : (0 : Int) + sumRound8 sz vars ≤ intMax := by omega
  have htotal : (layoutGlobals sz vars 0).2 = sumRound8 sz vars := by
    rw [layoutGlobals_total sz vars 0 (le_refl 0) hnn hfit0, zero_add]
  rw [htotal] at htot hinit
  have hlen : (rt'.globals.length : Int) = sumRound8 sz vars := by
    rw [initGlobals_length sz f32 _ _ _ _ hinit, length_resize]
    omega
  refine ⟨hlen, by rw [hvs, layoutGlobals_length], ?_⟩
  intro var hvar
  rw [hvs] at hvar
  obtain ⟨k, hk⟩ := List.getElem?_of_mem hvar
  obtain ⟨w, hw, hv⟩ := layoutGlobals_get sz vars 0 (le_refl 0) hnn hfit0 k var hk
  have hoff : var.globalsOffset = sumRound8 sz (vars.take k) := by
    rw [hv]
    simp
  have hty : var.elementType = w.elementType := by rw [hv]
  have h1 : 0 ≤ sumRound8 sz (vars.take k) :=
    sumRound8_nonneg sz _ (fun u hu => hnn u (List.mem_of_mem_take hu))
  have h2 := sumRound8_take_slot sz vars hnn k (k + 1) (by omega) w hw
  have h3 := sumRound8_take_le sz vars hnn (k + 1)
  have h4 := round8_ge (sz w.elementType) (hnn w (List.getElem?_mem hw))
  unfold JITRuntime.getPointerToGlobal
  rw [hoff, hty, hlen]
  refine ⟨h1, by omega, by omega, ?_⟩
  intro hpos
  omega

/-- C9 as amended, at an Int32, a Double and an Int8 global on a fresh runtime: the block has
24 bytes. -/
theorem compile_storage_block_size_witness :
    (∀ v ∈ exampleGlobals, 0 ≤ allocSizeOf v.elementType) ∧
      sumRound8 allocSizeOf exampleGlobals ≤ intMax ∧
      JITRuntime.compile allocSizeOf id addWin32 {} [] exampleGlobals [] =
        .ok ({ globals := List.replicate 24 0 }, (layoutGlobals allocSizeOf exampleGlobals 0).1) ∧
      ((List.replicate 24 0 : List Nat).length : Int) = sumRound8 allocSizeOf exampleGlobals :=
  ⟨by decide, by decide, rfl,
    (compile_storage_block_size allocSizeOf id addWin32 {} { globals := List.replicate 24 0 } []
      exampleGlobals (layoutGlobals allocSizeOf exampleGlobals 0).1 [] 0 (by decide) (by decide)
      rfl).1⟩

/-! ## Primitive types of the context -/

/-- C10, as stated, fails: on a context whose Int32 slot is empty, `getInt32Ty` returns null
and the slot is still empty afterwards; nothing is created or cached. -/
theorem getInt32Ty_empty_slot_returns_null :
    (IRContext.getInt32Ty {}).1 = none ∧ (IRContext.getInt32Ty {}).2.int32Type = none ∧
      ((IRContext.getInt32Ty {}).2.getInt32Ty).1 = none := by
  decide

/-- C10 as amended: for every context state and each of the eight primitive-type accessors,
the accessor returns the current content of its cache slot and leaves the context unchanged; so
it returns a present instance exactly when the slot is already populated, and a repeated call
returns the identical result. -/
theorem getTy_returns_slot (c : IRContext) (p : Primitive) :
    (c.getTy p).1 = c.slot p ∧ (c.getTy p).2 = c ∧
      (((c.getTy p).1).isSome ↔ (c.slot p).isSome) ∧
      ((c.getTy p).2.getTy p).1 = (c.getTy p).1 := by
  cases p <;> exact ⟨rfl, rfl, Iff.rfl, rfl⟩

/-! ## Placement on Windows x64 -/

theorem writeFunctionTable_end (codeSize : Nat) (es : List FunctionTableEntry) :
    ∀ table : Nat, (writeFunctionTable codeSize table es).2 = table + 12 * es.length := by
  induction es with
  | nil => intro table; rfl
  | cons e es ih =>
    intro table
    simp only [writeFunctionTable, ih, List.length_cons]
    omega

theorem writeFunctionTable_length (codeSize : Nat) (es : List FunctionTableEntry) :
    ∀ table : Nat, (writeFunctionTable codeSize table es).1.length = es.length := by
  induction es with
  | nil => intro table; rfl
  | cons e es ih => intro table; simp [writeFunctionTable, ih]

theorem writeFunctionTable_get (codeSize : Nat) (es : List FunctionTableEntry) :
    ∀ (table i : Nat) (entry : FunctionTableEntry), es[i]? = some entry →
      (writeFunctionTable codeSize table es).1[i]? =
        some (table + 12 * i,
          { BeginAddress := entry.beginAddress % 2 ^ 32,
            EndAddress := entry.endAddress % 2 ^ 32,
            UnwindInfoAddress := (codeSize + entry.beginUnwindData) % 2 ^ 32 }) := by
  induction es with
  | nil => intro table i entry h; simp at h
  | cons e es ih =>
    intro table i entry h
    cases i with
    | zero =>
      simp only [List.getElem?_cons_zero, Option.some.injEq] at h
      subst h
      simp [writeFunctionTable]
    | succ i =>
      simp only [List.getElem?_cons_succ] at h
      simp only [writeFunctionTable, List.getElem?_cons_succ]
      rw [ih (table + 12) i entry h]
      congr 2
      omega

/-- What a successful Windows `add` has done. -/
theorem addWin64_ok_inv (virtualAlloc : Nat → Option Nat)
    (rtlAddFunctionTable : Nat → Nat → Nat → Bool) (e : Win64Emission) (m : JitMemory)
    (r : Win64Placement) (h : addWin64 virtualAlloc rtlAddFunctionTable e m = .ok r) :
    ∃ m1, allocJitMemory virtualAlloc m
        ((round16 e.codeSize + round16 e.unwindDataSize +
          round16 (e.functionTable.length * 12 % sizeMod)) % sizeMod) = .ok (r.baseaddr, m1) ∧
      r.unwindaddr = r.baseaddr + round16 e.codeSize ∧
      r.tableaddr = r.baseaddr + round16 e.codeSize + round16 e.unwindDataSize ∧
      r.written = (writeFunctionTable (round16 e.codeSize) r.tableaddr e.functionTable).1 ∧
      r.installedTable = (writeFunctionTable (round16 e.codeSize) r.tableaddr e.functionTable).2 ∧
      r.installedCount = e.functionTable.length % 2 ^ 32 ∧
      r.installedBase = r.baseaddr ∧
      r.mem = { m1 with frames := m1.frames ++ [r.installedTable] } := by
  unfold addWin64 at h
  cases halloc : allocJitMemory virtualAlloc m
      ((round16 e.codeSize + round16 e.unwindDataSize +
        round16 (e.functionTable.length * 12 % sizeMod)) % sizeMod) with
  | error f =>
    simp only [halloc] at h
    cases h
  | ok pr =>
    obtain ⟨baseaddr, m1⟩ := pr
    simp only [halloc] at h
    split at h
    · simp only [Except.ok.injEq] at h
      subst h
      exact ⟨m1, rfl, rfl, rfl, rfl, rfl, rfl, rfl, rfl⟩
    · cases h

/-- C11 at the failing input: for a batch with one function-table entry placed on a fresh
runtime, the table is built at `baseaddr + 32 + 16 = 4144`, but the pointer handed to
`RtlAddFunctionTable` and pushed on `frames` is `4156`, one entry past the triple that was
written (the loop has advanced `table`); in general the installed pointer is
`tableaddr + 12 * count`, the address of the first triple only for an empty batch. -/
theorem addWin64_installs_advanced_pointer :
    (∃ r, addWin64 exampleAlloc exampleRtlAdd exampleBatch {} = .ok r ∧
      r.tableaddr = 4096 + round16 32 + round16 16 ∧ r.tableaddr = 4144 ∧
      r.written.map Prod.fst = [4144] ∧
      r.installedTable = 4156 ∧ r.mem.frames = [4156] ∧ r.installedCount = 1) ∧
    ∀ (virtualAlloc : Nat → Option Nat) (rtlAddFunctionTable : Nat → Nat → Nat → Bool)
      (e : Win64Emission) (m : JitMemory) (r : Win64Placement),
      addWin64 virtualAlloc rtlAddFunctionTable e m = .ok r →
      r.installedTable = r.tableaddr + 12 * e.functionTable.length ∧
        r.mem.frames.getLast? = some r.installedTable := by
  constructor
  · exact ⟨_, rfl, by decide, rfl, rfl, rfl, rfl, rfl⟩
  · intro virtualAlloc rtlAddFunctionTable e m r h
    obtain ⟨m1, _, _, _, _, h5, _, _, h8⟩ := addWin64_ok_inv _ _ _ _ _ h
    refine ⟨by rw [h5, writeFunctionTable_end], ?_⟩
    rw [h8]
    simp

/-- C14: Windows x64 table contents. After a successful `add` on a batch whose sizes do not
wrap around in `size_t`, the `i`-th triple is written at `tableaddr + 12 * i` and holds
`(beginAddress_i, endAddress_i, round16(codeSize) + beginUnwindData_i)` reduced to 32 bits, so
relative to `baseaddr` the unwind-data address is `unwindaddr + beginUnwindData_i` when it fits
in 32 bits; the code region starts at `baseaddr`, the unwind region at
`baseaddr + round16(codeSize)`, the table region at the end of the unwind region, and the table
region ends exactly at the end of the region requested from `allocJitMemory`, whose size is the
sum of the three rounded sizes; every triple lies inside the table region. -/
theorem addWin64_table_contents (virtualAlloc : Nat → Option Nat)
    (rtlAddFunctionTable : Nat → Nat → Nat → Bool) (e : Win64Emission) (m : JitMemory)
    (r : Win64Placement)
    (hcode : e.codeSize + 15 < sizeMod) (hunwind : e.unwindDataSize + 15 < sizeMod)
    (htable : e.functionTable.length * 12 + 15 < sizeMod)
    (htotal : round16 e.codeSize + round16 e.unwindDataSize +
      round16 (e.functionTable.length * 12) < sizeMod)
    (hok : addWin64 virtualAlloc rtlAddFunctionTable e m = .ok r) :
    (∃ m1, allocJitMemory virtualAlloc m (round16 e.codeSize + round16 e.unwindDataSize +
        round16 (e.functionTable.length * 12)) = .ok (r.baseaddr, m1)) ∧
      r.unwindaddr = r.baseaddr + round16 e.codeSize ∧
      r.tableaddr = r.unwindaddr + round16 e.unwindDataSize ∧
      r.tableaddr + round16 (e.functionTable.length * 12) =
        r.baseaddr + (round16 e.codeSize + round16 e.unwindDataSize +
          round16 (e.functionTable.length * 12)) ∧
      e.codeSize ≤ round16 e.codeSize ∧ e.unwindDataSize ≤ round16 e.unwindDataSize ∧
      r.written.length = e.functionTable.length ∧
      ∀ (i : Nat) (entry : FunctionTableEntry), e.functionTable[i]? = some entry →
        r.written[i]? = some (r.tableaddr + 12 * i,
          { BeginAddress := entry.beginAddress % 2 ^ 32,
            EndAddress := entry.endAddress % 2 ^ 32,
            UnwindInfoAddress := (round16 e.codeSize + entry.beginUnwindData) % 2 ^ 32 }) ∧
        r.tableaddr + 12 * i + 12 ≤ r.tableaddr + round16 (e.functionTable.length * 12) ∧
        (round16 e.codeSize + entry.beginUnwindData < 2 ^ 32 →
          r.baseaddr + (round16 e.codeSize + entry.beginUnwindData) % 2 ^ 32 =
            r.unwindaddr + entry.beginUnwindData) := by
  obtain ⟨m1, h1, h2, h3, h4, _, _, _, _⟩ := addWin64_ok_inv _ _ _ _ _ hok
  have hmod : e.functionTable.length * 12 % sizeMod = e.functionTable.length * 12 :=
    Nat.mod_eq_of_lt (by omega)
  rw [hmod, Nat.mod_eq_of_lt htotal] at h1
  have hr : ∀ x, x + 15 < sizeMod → x ≤ round16 x ∧ round16 x < x + 16 := by
    intro x hx
    unfold round16
    have : (x + 15) % 2 ^ 64 = x + 15 := Nat.mod_eq_of_lt hx
    rw [this]
    omega
  refine ⟨⟨m1, h1⟩, h2, by rw [h3, h2], by rw [h3]; omega, (hr _ hcode).1, (hr _ hunwind).1,
    by rw [h4, writeFunctionTable_length], ?_⟩
  intro i entry hi
  refine ⟨by rw [h4]; exact writeFunctionTable_get _ _ _ _ _ hi, ?_, ?_⟩
  · have hlt : i < e.functionTable.length := (List.getElem?_eq_some.mp hi).1
    have := (hr _ htable).1
    omega
  · intro hfit
    rw [Nat.mod_eq_of_lt hfit, h2]
    omega

/-- C14 at a batch of one function (32 code bytes, 16 bytes of unwind data) on a fresh
runtime. -/
theorem addWin64_table_contents_witness :
    ∃ r, addWin64 exampleAlloc exampleRtlAdd exampleBatch {} = .ok r ∧
      r.unwindaddr = r.baseaddr + round16 exampleBatch.codeSize ∧
      r.tableaddr = r.unwindaddr + round16 exampleBatch.unwindDataSize ∧
      r.written.length = exampleBatch.functionTable.length := by
  have h : ∃ r, addWin64 exampleAlloc exampleRtlAdd exampleBatch {} = .ok r := ⟨_, rfl⟩
  obtain ⟨r, hr⟩ := h
  have := addWin64_table_contents exampleAlloc exampleRtlAdd exampleBatch {} r
    (by decide) (by decide) (by decide) (by decide) hr
  exact ⟨r, hr, this.2.1, this.2.2.1, this.2.2.2.2.2.2.1⟩

/-! ## Code emission and native overrides -/

/-- C12, as stated, fails: a function that is in the function table and has a native mapping
is passed to `addFunction(func)` for emission as well as to `addFunction(func, address)`. -/
theorem fillCodeHolder_emits_mapped_function :
    fillCodeHolder [exampleFunction] [(.function exampleFunction, 4096)] =
        [HolderEntry.emit exampleFunction, HolderEntry.external exampleFunction 4096] ∧
      HolderEntry.emit exampleFunction ∈
        fillCodeHolder [exampleFunction] [(.function exampleFunction, 4096)] := by
  constructor
  · rfl
  · decide

theorem count_filterMap_external (maps : List (IRValue × Nat)) (f : IRFunction) (a : Nat) :
    (maps.filterMap fun m =>
        match m.1 with
        | .function func => some (HolderEntry.external func m.2)
        | .other _ => none).count (HolderEntry.external f a) =
      maps.count (IRValue.function f, a) := by
  induction maps with
  | nil => rfl
  | cons m rest ih =>
    obtain ⟨v, b⟩ := m
    cases v with
    | function g =>
      simp only [List.filterMap_cons, List.count_cons, ih]
      congr 1
      by_cases h : g = f ∧ b = a
      · obtain ⟨rfl, rfl⟩ := h
        simp
      · have h1 : ¬ (HolderEntry.external g b == HolderEntry.external f a) = true := by
          simpa using h
        have h2 : ¬ ((IRValue.function g, b) == (IRValue.function f, a)) = true := by
          simpa using h
        simp [h1, h2]
    | other id =>
      simp only [List.filterMap_cons, List.count_cons, ih]
      simp

theorem count_emit_filterMap (maps : List (IRValue × Nat)) (f : IRFunction) :
    (maps.filterMap fun m =>
        match m.1 with
        | .function func => some (HolderEntry.external func m.2)
        | .other _ => none).count (HolderEntry.emit f) = 0 := by
  rw [List.count_eq_zero]
  intro h
  simp only [List.mem_filterMap] at h
  obtain ⟨m, _, hm⟩ := h
  split at hm <;> simp at hm

/-- C12 as amended: during `compile`, every function of the function table is submitted to the
code holder for emission, once per table entry (exactly once when the table has no repeated
function), whether or not it has a native mapping; every mapping entry whose value is a function
is registered, once, as bound to its native address, in addition to any emission of that
function; mapping entries whose value is not a function contribute nothing. -/
theorem fillCodeHolder_entries (functions : List IRFunction) (maps : List (IRValue × Nat))
    (f : IRFunction) (a : Nat) :
    (fillCodeHolder functions maps).count (HolderEntry.emit f) = functions.count f ∧
      (functions.Nodup → f ∈ functions →
        (fillCodeHolder functions maps).count (HolderEntry.emit f) = 1) ∧
      (fillCodeHolder functions maps).count (HolderEntry.external f a) =
        maps.count (IRValue.function f, a) ∧
      (∀ x ∈ fillCodeHolder functions maps,
        (∃ g ∈ functions, x = HolderEntry.emit g) ∨
        (∃ g b, (IRValue.function g, b) ∈ maps ∧ x = HolderEntry.external g b)) ∧
      fillCodeHolder functions (maps.filter fun m => m.1 matches .function _) =
        fillCodeHolder functions maps := by
  have hemit : (fillCodeHolder functions maps).count (HolderEntry.emit f) = functions.count f := by
    unfold fillCodeHolder
    rw [List.count_append, count_emit_filterMap, Nat.add_zero]
    exact List.count_map_of_injective _ _ (fun x y h => by injection h) f
  refine ⟨hemit, ?_, ?_, ?_, ?_⟩
  · intro hnd hf
    rw [hemit]
    exact List.count_eq_one_of_mem hnd hf
  · unfold fillCodeHolder
    rw [List.count_append, count_filterMap_external]
    have : (functions.map HolderEntry.emit).count (HolderEntry.external f a) = 0 := by
      rw [List.count_eq_zero]
      intro h
      simp at h
    omega
  · intro x hx
    unfold fillCodeHolder at hx
    rw [List.mem_append] at hx
    rcases hx with hx | hx
    · left
      simp only [List.mem_map] at hx
      obtain ⟨g, hg, rfl⟩ := hx
      exact ⟨g, hg, rfl⟩
    · right
      simp only [List.mem_filterMap] at hx
      obtain ⟨m, hm, hx⟩ := hx
      obtain ⟨v, b⟩ := m
      cases v with
      | function g =>
        simp only [Option.some.injEq] at hx
        exact ⟨g, b, hm, hx.symm⟩
      | other id => simp at hx
  · unfold fillCodeHolder
    congr 1
    clear hemit
    induction maps with
    | nil => rfl
    | cons m rest ih =>
      obtain ⟨v, b⟩ := m
      cases v with
      | function g => simp [List.filter_cons, ih]
      | other id => simp [List.filter_cons, ih]

/-! ## Teardown -/

/-- C18: teardown order. On a build that registers frames (64-bit Windows, or not Windows; a
32-bit Windows build never registers a frame), the deregistrations made by the destructor are
the entries of `frames`, one call per entry, the releases are the entries of `blocks`, one call
per entry, and every deregistration precedes every release. -/
theorem destructor_order (platform : Platform) (m : JitMemory)
    (hplatform : platform = .win32 → m.frames = []) :
    (destructor platform m).filterMap TeardownCall.frame? = m.frames ∧
      (destructor platform m).filterMap TeardownCall.block? = m.blocks ∧
      (destructor platform m).length = m.frames.length + m.blocks.length ∧
      ∀ (i j : Nat) (a b : TeardownCall) (p q : Nat), (destructor platform m)[i]? = some a →
        (destructor platform m)[j]? = some b → a.frame? = some p → b.block? = some q →
        i < j := by
  have hmapf : ∀ l : List Nat,
      (l.map TeardownCall.virtualFree).filterMap TeardownCall.frame? = [] := by
    intro l
    induction l with
    | nil => rfl
    | cons x l ih => simp [TeardownCall.frame?, ih]
  have hmapb : ∀ l : List Nat,
      (l.map TeardownCall.virtualFree).filterMap TeardownCall.block? = l := by
    intro l
    induction l with
    | nil => rfl
    | cons x l ih => simp [TeardownCall.block?, ih]
  have h1 : ∀ l : List Nat, (l.map TeardownCall.rtlDeleteFunctionTable).filterMap
      TeardownCall.frame? = l ∧ (l.map TeardownCall.rtlDeleteFunctionTable).filterMap
      TeardownCall.block? = [] := by
    intro l
    induction l with
    | nil => exact ⟨rfl, rfl⟩
    | cons x l ih => simp [TeardownCall.frame?, TeardownCall.block?, ih.1, ih.2]
  have h2 : ∀ l : List Nat, (l.map TeardownCall.deregisterFrame).filterMap
      TeardownCall.frame? = l ∧ (l.map TeardownCall.deregisterFrame).filterMap
      TeardownCall.block? = [] := by
    intro l
    induction l with
    | nil => exact ⟨rfl, rfl⟩
    | cons x l ih => simp [TeardownCall.frame?, TeardownCall.block?, ih.1, ih.2]
  have key : ∀ pre : List TeardownCall, pre.length = m.frames.length →
      (∀ x ∈ pre, x.block? = none) →
      ∀ (i j : Nat) (a b : TeardownCall) (p q : Nat),
        (pre ++ m.blocks.map TeardownCall.virtualFree)[i]? = some a →
        (pre ++ m.blocks.map TeardownCall.virtualFree)[j]? = some b →
        a.frame? = some p → b.block? = some q → i < j := by
    intro pre _ hpre i j a b p q hi hj ha hb
    by_contra hcon
    have hji : j ≤ i := by omega
    by_cases hipre : i < pre.length
    · rw [List.getElem?_append_left (by omega)] at hj
      have := hpre b (List.getElem?_mem hj)
      rw [this] at hb
      cases hb
    · rw [List.getElem?_append_right (by omega)] at hi
      have hmem := List.getElem?_mem hi
      simp only [List.mem_map] at hmem
      obtain ⟨x, _, rfl⟩ := hmem
      simp [TeardownCall.frame?] at ha
  cases platform with
  | win64 =>
    simp only [destructor, List.filterMap_append, hmapf, hmapb, (h1 _).1, (h1 _).2,
      List.append_nil, List.nil_append, List.length_append, List.length_map, true_and]
    exact key _ (by simp) (by
      intro x hx
      simp only [List.mem_map] at hx
      obtain ⟨y, _, rfl⟩ := hx
      rfl)
  | win32 =>
    have hf := hplatform rfl
    simp only [destructor, List.filterMap_append, hmapf, hmapb, hf, List.append_nil,
      List.nil_append, List.length_append, List.length_map, List.length_nil,
      List.filterMap_nil, true_and]
    have := key [] (by simp [hf]) (by simp)
    simpa using this
  | unix =>
    simp only [destructor, List.filterMap_append, hmapf, hmapb, (h2 _).1, (h2 _).2,
      List.append_nil, List.nil_append, List.length_append, List.length_map, true_and]
    exact key _ (by simp) (by
      intro x hx
      simp only [List.mem_map] at hx
      obtain ⟨y, _, rfl⟩ := hx
      rfl)

/-- C18 at a non-Windows runtime with two registered frames and two blocks. -/
theorem destructor_order_witness :
    (destructor .unix { blocks := [4096, 65536], frames := [4200, 4300] }).filterMap
        TeardownCall.frame? = [4200, 4300] ∧
      (destructor .unix { blocks := [4096, 65536], frames := [4200, 4300] }).filterMap
        TeardownCall.block? = [4096, 65536] :=
  have h := destructor_order .unix { blocks := [4096, 65536], frames := [4200, 4300] }
    (by intro h; cases h)
  ⟨h.1, h.2.1⟩

/-! ## Payload conversion of the `getConstantInt` overloads -/

/-- C20: the `int32_t` and `int64_t` overloads forward `value mod 2^64` (for a value of the
parameter type this is the value itself when non-negative and `value + 2^64` when negative),
the `uint32_t` overload forwards the value unchanged; for a 32-bit pattern `bits` the
`int32_t` overload forwards `bits` when the top bit is clear and `bits + (2^64 - 2^32)` when it
is set, so the forwarded pairs (type, payload) of the `int32_t` and `uint32_t` overloads differ
exactly when the top bit is set. -/
theorem getConstantInt_overload_payload (type : Nat) (value : Int) (bits : Nat)
    (hvalue : -2 ^ 63 ≤ value ∧ value < 2 ^ 63) (hbits : bits < 2 ^ 32) :
    IRContext.getConstantInt_int32 Prod.mk type value = (type, (value % 2 ^ 64).toNat) ∧
      IRContext.getConstantInt_int64 Prod.mk type value = (type, (value % 2 ^ 64).toNat) ∧
      ((toUInt64 value : Int) = if 0 ≤ value then value else value + 2 ^ 64) ∧
      IRContext.getConstantInt_uint32 Prod.mk type bits = (type, bits) ∧
      IRContext.getConstantInt_int32 Prod.mk type (int32OfBits bits) =
        (type, if bits < 2 ^ 31 then bits else bits + (2 ^ 64 - 2 ^ 32)) ∧
      (IRContext.getConstantInt_int32 Prod.mk type (int32OfBits bits) ≠
          IRContext.getConstantInt_uint32 Prod.mk type bits ↔ 2 ^ 31 ≤ bits) := by
  have hconv : ∀ v : Int, -2 ^ 63 ≤ v → v < 2 ^ 63 →
      (toUInt64 v : Int) = if 0 ≤ v then v else v + 2 ^ 64 := by
    intro v h1 h2
    unfold toUInt64
    split <;> omega
  have hbitsconv : toUInt64 (int32OfBits bits) =
      if bits < 2 ^ 31 then bits else bits + (2 ^ 64 - 2 ^ 32) := by
    have := hconv (int32OfBits bits) (by unfold int32OfBits; split <;> omega)
      (by unfold int32OfBits; split <;> omega)
    unfold int32OfBits at this ⊢
    split at this <;> split at this <;> split <;> omega
  refine ⟨rfl, rfl, hconv value hvalue.1 hvalue.2, rfl, ?_, ?_⟩
  · show (type, toUInt64 (int32OfBits bits)) = _
    rw [hbitsconv]
  · show (type, toUInt64 (int32OfBits bits)) ≠ (type, bits) ↔ _
    rw [hbitsconv]
    simp only [ne_eq, Prod.mk.injEq, true_and]
    split <;> omega

/-- C20 at the value `-1` and the pattern `0xFFFFFFFF`: the signed overloads forward
`0xFFFFFFFFFFFFFFFF`, the `uint32_t` overload forwards `0xFFFFFFFF`. -/
theorem getConstantInt_overload_payload_witness :
    IRContext.getConstantInt_int32 Prod.mk 7 (-1) = (7, 0xFFFFFFFFFFFFFFFF) ∧
      IRContext.getConstantInt_uint32 Prod.mk 7 0xFFFFFFFF = (7, 0xFFFFFFFF) ∧
      (IRContext.getConstantInt_int32 Prod.mk 7 (int32OfBits 0xFFFFFFFF) ≠
          IRContext.getConstantInt_uint32 Prod.mk 7 0xFFFFFFFF ↔ 2 ^ 31 ≤ 0xFFFFFFFF) :=
  have h := getConstantInt_overload_payload 7 (-1) 0xFFFFFFFF (by decide) (by decide)
  ⟨h.1, h.2.2.2.1, h.2.2.2.2.2⟩

/-! ## The allocator invariant -/

/-- One call of `allocJitMemory` with a size between 1 byte and 1 MiB preserves the invariant. -/
theorem AllocInv.step (os : Nat → Option Nat)
    (hos : ∀ (i j bi bj : Nat), i ≠ j → os i = some bi → os j = some bj →
      bi + 1024 * 1024 ≤ bj ∨ bj + 1024 * 1024 ≤ bi)
    (m m1 : JitMemory) (rs : List (Nat × Nat)) (size p : Nat) (hinv : AllocInv os m rs)
    (h1 : 1 ≤ size) (h2 : size ≤ 1024 * 1024)
    (h : allocJitMemory (fun _ => os m.blocks.length) m size = .ok (p, m1)) :
    AllocInv os m1 (rs ++ [(p, size)]) := by
  have hsz : m.blockSize ≤ 1024 * 1024 := by
    by_cases hb : m.blocks = []
    · rw [hinv.empty hb]; omega
    · rw [hinv.nonempty hb]
  have hpos := hinv.pos_le
  have hmod : (m.blockPos + size) % sizeMod = m.blockPos + size :=
    Nat.mod_eq_of_lt (by unfold sizeMod; omega)
  unfold allocJitMemory at h
  rw [hmod] at h
  split at h
  · rename_i hfit
    have hne : m.blocks ≠ [] := by
      intro hb
      have := hinv.empty hb
      omega
    cases hlast : m.blocks.getLast? with
    | none => rw [hlast] at h; cases h
    | some last =>
      rw [hlast] at h
      simp only [Except.ok.injEq, Prod.mk.injEq] at h
      obtain ⟨hp, hm1⟩ := h
      subst hp hm1
      have hidx : m.blocks[m.blocks.length - 1]? = some last := by
        rw [← List.getLast?_eq_getElem?]
        exact hlast
      have hlen : 0 < m.blocks.length := List.length_pos.mpr hne
      refine ⟨by show m.blockPos + size ≤ m.blockSize; exact hfit, hinv.empty, hinv.nonempty,
        hinv.fromOs, ?_, ?_⟩
      · intro r hr
        rw [List.mem_append, List.mem_singleton] at hr
        rcases hr with hr | rfl
        · obtain ⟨k, b, hk, hb1, hb2, hb3⟩ := hinv.inside r hr
          refine ⟨k, b, hk, hb1, hb2, ?_⟩
          intro hkl
          have := hb3 hkl
          show r.1 + r.2 ≤ b + (m.blockPos + size)
          omega
        · refine ⟨m.blocks.length - 1, last, hidx, by show last ≤ last + m.blockPos; omega, ?_, ?_⟩
          · show last + m.blockPos + size ≤ last + 1024 * 1024
            omega
          · intro _
            show last + m.blockPos + size ≤ last + (m.blockPos + size)
            omega
      · rw [List.pairwise_append]
        refine ⟨hinv.disjoint, List.pairwise_singleton _ _, ?_⟩
        intro r hr q hq
        rw [List.mem_singleton] at hq
        subst hq
        obtain ⟨k, b, hk, hb1, hb2, hb3⟩ := hinv.inside r hr
        by_cases hkl : k + 1 = m.blocks.length
        · have hkk : k = m.blocks.length - 1 := by omega
          rw [hkk, hidx] at hk
          injection hk with hk
          subst hk
          have := hb3 hkl
          left
          show r.1 + r.2 ≤ last + m.blockPos
          exact this
        · have hd := hos k (m.blocks.length - 1) b last (by omega) (hinv.fromOs k b hk)
            (hinv.fromOs _ last hidx)
          unfold regionsDisjoint
          show r.1 + r.2 ≤ last + m.blockPos ∨ last + m.blockPos + size ≤ r.1
          omega
  · cases hbase : os m.blocks.length with
    | none => simp only [hbase] at h; cases h
    | some base =>
      simp only [hbase, Except.ok.injEq, Prod.mk.injEq] at h
      obtain ⟨hp, hm1⟩ := h
      subst hp hm1
      have hget : ∀ (k b : Nat), (m.blocks ++ [base])[k]? = some b →
          (k < m.blocks.length ∧ m.blocks[k]? = some b) ∨ (k = m.blocks.length ∧ b = base) := by
        intro k b hk
        by_cases hlt : k < m.blocks.length
        · rw [List.getElem?_append_left hlt] at hk
          exact Or.inl ⟨hlt, hk⟩
        · rw [List.getElem?_append_right (by omega)] at hk
          have hk0 : k - m.blocks.length = 0 := by
            by_contra hne
            have : ([base] : List Nat)[k - m.blocks.length]? = none := by
              apply List.getElem?_eq_none
              simp only [List.length_singleton]
              omega
            rw [this] at hk
            cases hk
          rw [hk0] at hk
          simp only [List.getElem?_cons_zero, Option.some.injEq] at hk
          exact Or.inr ⟨by omega, hk.symm⟩
      have hold : ∀ (k b : Nat), m.blocks[k]? = some b →
          k < m.blocks.length ∧ (m.blocks ++ [base])[k]? = some b := by
        intro k b hk
        have hlt : k < m.blocks.length := (List.getElem?_eq_some.mp hk).1
        exact ⟨hlt, by rw [List.getElem?_append_left hlt]; exact hk⟩
      have hnew : (m.blocks ++ [base])[m.blocks.length]? = some base := by
        rw [List.getElem?_append_right (le_refl _)]
        simp
      refine ⟨by show size ≤ 1024 * 1024; exact h2, ?_, fun _ => rfl, ?_, ?_, ?_⟩
      · intro hb
        simp at hb
      · intro k b hk
        rcases hget k b hk with ⟨_, hk'⟩ | ⟨rfl, rfl⟩
        · exact hinv.fromOs k b hk'
        · exact hbase
      · intro r hr
        rw [List.mem_append, List.mem_singleton] at hr
        rcases hr with hr | rfl
        · obtain ⟨k, b, hk, hb1, hb2, _⟩ := hinv.inside r hr
          obtain ⟨hlt, hk'⟩ := hold k b hk
          refine ⟨k, b, hk', hb1, hb2, ?_⟩
          intro hkl
          simp only [List.length_append, List.length_singleton] at hkl
          omega
        · refine ⟨m.blocks.length, base, hnew, le_refl _, ?_, ?_⟩
          · show base + size ≤ base + 1024 * 1024
            omega
          · intro _
            show base + size ≤ base + size
            exact le_refl _
      · rw [List.pairwise_append]
        refine ⟨hinv.disjoint, List.pairwise_singleton _ _, ?_⟩
        intro r hr q hq
        rw [List.mem_singleton] at hq
        subst hq
        obtain ⟨k, b, hk, hb1, hb2, _⟩ := hinv.inside r hr
        obtain ⟨hlt, _⟩ := hold k b hk
        have hd := hos k m.blocks.length b base (by omega) (hinv.fromOs k b hk) hbase
        unfold regionsDisjoint
        show r.1 + r.2 ≤ base ∨ base + size ≤ r.1
        omega

/-- A sequence of calls with sizes between 1 byte and 1 MiB preserves the invariant. -/
theorem AllocInv.sequence (os : Nat → Option Nat)
    (hos : ∀ (i j bi bj : Nat), i ≠ j → os i = some bi → os j = some bj →
      bi + 1024 * 1024 ≤ bj ∨ bj + 1024 * 1024 ≤ bi)
    (sizes : List Nat) : ∀ (m m' : JitMemory) (pre rs : List (Nat × Nat)),
      AllocInv os m pre → (∀ s ∈ sizes, 1 ≤ s ∧ s ≤ 1024 * 1024) →
      allocSequence os m sizes = .ok (rs, m') →
      AllocInv os m' (pre ++ rs) ∧ rs.map Prod.snd = sizes := by
  induction sizes with
  | nil =>
    intro m m' pre rs hinv _ h
    simp only [allocSequence, Except.ok.injEq, Prod.mk.injEq] at h
    obtain ⟨h1, h2⟩ := h
    subst h1 h2
    simpa using hinv
  | cons s rest ih =>
    intro m m' pre rs hinv hs h
    rw [allocSequence] at h
    cases hstep : allocJitMemory (fun _ => os m.blocks.length) m s with
    | error f => rw [hstep] at h; cases h
    | ok pr =>
      obtain ⟨p, m1⟩ := pr
      rw [hstep] at h
      simp only at h
      cases hrest : allocSequence os m1 rest with
      | error f => rw [hrest] at h; cases h
      | ok pr2 =>
        obtain ⟨rs2, m2⟩ := pr2
        rw [hrest] at h
        simp only [Except.ok.injEq, Prod.mk.injEq] at h
        obtain ⟨h1, h2⟩ := h
        subst h1 h2
        have hs0 := hs s (List.mem_cons_self _ _)
        have hinv1 := AllocInv.step os hos m m1 pre s p hinv hs0.1 hs0.2 hstep
        have := ih m1 m2 (pre ++ [(p, s)]) rs2 hinv1
          (fun x hx => hs x (List.mem_cons_of_mem _ hx)) hrest
        refine ⟨?_, ?_⟩
        · have h3 := this.1
          rw [List.append_assoc] at h3
          exact h3
        · simp [this.2]

/-- A sequence that completes also completes on each of its prefixes. -/
theorem allocSequence_take (os : Nat → Option Nat) (sizes : List Nat) :
    ∀ (m m' : JitMemory) (rs : List (Nat × Nat)) (n : Nat),
      allocSequence os m sizes = .ok (rs, m') →
      ∃ m'', allocSequence os m (sizes.take n) = .ok (rs.take n, m'') := by
  induction sizes with
  | nil =>
    intro m m' rs n h
    simp only [allocSequence, Except.ok.injEq, Prod.mk.injEq] at h
    obtain ⟨h1, _⟩ := h
    subst h1
    exact ⟨m, by simp [allocSequence]⟩
  | cons s rest ih =>
    intro m m' rs n h
    cases n with
    | zero => exact ⟨m, by simp [allocSequence]⟩
    | succ n =>
      rw [allocSequence] at h
      cases hstep : allocJitMemory (fun _ => os m.blocks.length) m s with
      | error f => rw [hstep] at h; cases h
      | ok pr =>
        obtain ⟨p, m1⟩ := pr
        rw [hstep] at h
        simp only at h
        cases hrest : allocSequence os m1 rest with
        | error f => rw [hrest] at h; cases h
        | ok pr2 =>
          obtain ⟨rs2, m2⟩ := pr2
          rw [hrest] at h
          simp only [Except.ok.injEq, Prod.mk.injEq] at h
          obtain ⟨h1, _⟩ := h
          subst h1
          obtain ⟨m'', hm''⟩ := ih m1 m2 rs2 n hrest
          refine ⟨m'', ?_⟩
          simp only [List.take_succ_cons]
          rw [allocSequence, hstep]
          simp only [hm'']

theorem AllocInv.initial (os : Nat → Option Nat) : AllocInv os {} [] :=
  ⟨le_refl _, fun _ => rfl, fun h => absurd rfl h, fun k b h => by simp at h,
    fun r hr => by simp at hr, List.Pairwise.nil⟩

/-- Under the invariant, a sequence of calls with sizes between 1 byte and 1 MiB completes when
the operating system grants every block. -/
theorem allocSequence_completes (os : Nat → Option Nat)
    (hos : ∀ (i j bi bj : Nat), i ≠ j → os i = some bi → os j = some bj →
      bi + 1024 * 1024 ≤ bj ∨ bj + 1024 * 1024 ≤ bi)
    (hlive : ∀ k, ∃ b, os k = some b) (sizes : List Nat) :
    ∀ (m : JitMemory) (pre : List (Nat × Nat)), AllocInv os m pre →
      (∀ s ∈ sizes, 1 ≤ s ∧ s ≤ 1024 * 1024) →
      ∃ rs m', allocSequence os m sizes = .ok (rs, m') := by
  induction sizes with
  | nil => intro m pre _ _; exact ⟨[], m, rfl⟩
  | cons s rest ih =>
    intro m pre hinv hs
    have hs0 := hs s (List.mem_cons_self _ _)
    have hstep : ∃ p m1, allocJitMemory (fun _ => os m.blocks.length) m s = .ok (p, m1) := by
      have hsz : m.blockSize ≤ 1024 * 1024 := by
        by_cases hb : m.blocks = []
        · rw [hinv.empty hb]; omega
        · rw [hinv.nonempty hb]
      have hpos := hinv.pos_le
      have hmod : (m.blockPos + s) % sizeMod = m.blockPos + s :=
        Nat.mod_eq_of_lt (by unfold sizeMod; omega)
      unfold allocJitMemory
      rw [hmod]
      split
      · rename_i hfit
        have hne : m.blocks ≠ [] := by
          intro hb
          have := hinv.empty hb
          omega
        rw [List.getLast?_eq_getLast _ hne]
        exact ⟨_, _, rfl⟩
      · obtain ⟨b, hb⟩ := hlive m.blocks.length
        simp only [hb]
        exact ⟨_, _, rfl⟩
    obtain ⟨p, m1, hpm⟩ := hstep
    have hinv1 := AllocInv.step os hos m m1 pre s p hinv hs0.1 hs0.2 hpm
    obtain ⟨rs, m', hrest⟩ := ih m1 _ hinv1 (fun x hx => hs x (List.mem_cons_of_mem _ hx))
    refine ⟨(p, s) :: rs, m', ?_⟩
    rw [allocSequence, hpm]
    simp only [hrest]

/-- C16: allocator invariant. For every sequence of `allocJitMemory` requests with sizes between
1 byte and 1 MiB starting from the empty runtime, where distinct blocks granted by the operating
system do not overlap: after the sequence, and after each of its prefixes, `blockPos <=
blockSize`; every returned region lies inside a 1 MiB block of the block list; no two returned
regions overlap; and the sequence completes whenever the operating system grants every block. -/
theorem allocSequence_invariant (os : Nat → Option Nat) (sizes : List Nat)
    (hsizes : ∀ s ∈ sizes, 1 ≤ s ∧ s ≤ 1024 * 1024)
    (hos : ∀ (i j bi bj : Nat), i ≠ j → os i = some bi → os j = some bj →
      bi + 1024 * 1024 ≤ bj ∨ bj + 1024 * 1024 ≤ bi) :
    (∀ (rs : List (Nat × Nat)) (m : JitMemory), allocSequence os {} sizes = .ok (rs, m) →
      m.blockPos ≤ m.blockSize ∧ rs.map Prod.snd = sizes ∧
      (∀ r ∈ rs, ∃ (k b : Nat), m.blocks[k]? = some b ∧ os k = some b ∧ b ≤ r.1 ∧
        r.1 + r.2 ≤ b + 1024 * 1024) ∧
      rs.Pairwise regionsDisjoint ∧
      ∀ n : Nat, ∃ m', allocSequence os {} (sizes.take n) = .ok (rs.take n, m') ∧
        m'.blockPos ≤ m'.blockSize) ∧
    ((∀ k, ∃ b, os k = some b) → ∃ rs m, allocSequence os {} sizes = .ok (rs, m)) := by
  constructor
  · intro rs m hok
    have h := AllocInv.sequence os hos sizes {} m [] rs (AllocInv.initial os) hsizes hok
    rw [List.nil_append] at h
    obtain ⟨hinv, hmap⟩ := h
    refine ⟨hinv.pos_le, hmap, ?_, hinv.disjoint, ?_⟩
    · intro r hr
      obtain ⟨k, b, hk, hb1, hb2, _⟩ := hinv.inside r hr
      exact ⟨k, b, hk, hinv.fromOs k b hk, hb1, hb2⟩
    · intro n
      obtain ⟨m', hm'⟩ := allocSequence_take os sizes {} m rs n hok
      refine ⟨m', hm', ?_⟩
      have h' := AllocInv.sequence os hos (sizes.take n) {} m' [] (rs.take n)
        (AllocInv.initial os) (fun s hs => hsizes s (List.mem_of_mem_take hs)) hm'
      exact h'.1.pos_le
  · intro hlive
    exact allocSequence_completes os hos hlive sizes {} [] (AllocInv.initial os) hsizes

/-- C16 at the requests 1 MiB, 1 byte, 1048575 bytes, 2 bytes with blocks granted at
consecutive multiples of 1 MiB: three blocks are used and the four regions are disjoint. -/
theorem allocSequence_invariant_witness :
    allocSequence exampleOs {} [1048576, 1, 1048575, 2] =
        .ok ([(1048576, 1048576), (2097152, 1), (2097153, 1048575), (3145728, 2)],
          { blocks := [1048576, 2097152, 3145728], blockPos := 2, blockSize := 1048576,
            frames := [] }) ∧
      [(1048576, 1048576), (2097152, 1), (2097153, 1048575),
        (3145728, 2)].Pairwise regionsDisjoint :=
  have hsizes : ∀ s ∈ [1048576, 1, 1048575, 2], 1 ≤ s ∧ s ≤ 1024 * 1024 := by decide
  have hos : ∀ (i j bi bj : Nat), i ≠ j → exampleOs i = some bi → exampleOs j = some bj →
      bi + 1024 * 1024 ≤ bj ∨ bj + 1024 * 1024 ≤ bi := by
    intro i j bi bj hij hi hj
    simp only [exampleOs, Option.some.injEq] at hi hj
    omega
  ⟨rfl, ((allocSequence_invariant exampleOs [1048576, 1, 1048575, 2] hsizes hos).1 _ _
    rfl).2.2.2.1⟩

/-! ## Placement on Unix -/

/-- What a successful `allocJitMemory` call whose size does not wrap around has done: the
pointer lies in the last block of the new block list, `blockPos` is the offset of the pointer in
that block plus the size, and `frames` is unchanged. -/
theorem allocJitMemory_ok_cursor (virtualAlloc : Nat → Option Nat) (m m1 : JitMemory)
    (size p : Nat) (hwrap : m.blockPos + size < sizeMod)
    (h : allocJitMemory virtualAlloc m size = .ok (p, m1)) :
    m1.frames = m.frames ∧
      ∃ base, m1.blocks.getLast? = some base ∧ base ≤ p ∧ p - base ≤ m.blockPos ∧
        m1.blockPos = (p - base) + size := by
  unfold allocJitMemory at h
  rw [Nat.mod_eq_of_lt hwrap] at h
  split at h
  · cases hlast : m.blocks.getLast? with
    | none => rw [hlast] at h; cases h
    | some last =>
      rw [hlast] at h
      simp only [Except.ok.injEq, Prod.mk.injEq] at h
      obtain ⟨hp, hm1⟩ := h
      subst hp hm1
      exact ⟨rfl, last, hlast, by omega, by omega, by show m.blockPos + size = _; omega⟩
  · cases hbase : virtualAlloc (1024 * 1024) with
    | none => simp only [hbase] at h; cases h
    | some base =>
      simp only [hbase, Except.ok.injEq, Prod.mk.injEq] at h
      obtain ⟨hp, hm1⟩ := h
      subst hp hm1
      exact ⟨rfl, base, by simp, le_refl _, by omega, by show size = _; omega⟩

/-- What a successful Unix `add` on a non-empty code holder has done. -/
theorem addUnix_ok_inv (apple : Bool) (fuel : Nat) (virtualAlloc : Nat → Option Nat)
    (relocate : (Nat → Nat) → Nat → (Nat → Nat) × Nat) (e : UnixEmission)
    (memory : Nat → Nat) (m : JitMemory) (r : UnixPlacement) (hcode : e.codeSize ≠ 0)
    (h : addUnix apple fuel virtualAlloc relocate e memory m = .ok r) :
    ∃ m1, allocJitMemory virtualAlloc m
        ((round16 e.codeSize + e.unwindInfo.length) % sizeMod) = .ok (r.p, m1) ∧
      r.relocSize = (relocate memory r.p).2 ∧
      r.unwindptr = r.p + round16 r.relocSize ∧
      r.mem.blocks = m1.blocks ∧ r.mem.blockSize = m1.blockSize ∧
      r.mem.blockPos = (m1.blockPos + sizeMod -
        (round16 e.codeSize + sizeMod - round16 r.relocSize) % sizeMod) % sizeMod ∧
      r.mem.frames = m1.frames ++ r.registered ∧
      (e.unwindInfo.length = 0 → r.registered = [] ∧
        r.memory = writeMem (relocate memory r.p).1 r.unwindptr e.unwindInfo) ∧
      (0 < e.unwindInfo.length →
        r.memory = writeMem (writeMem (relocate memory r.p).1 r.unwindptr e.unwindInfo)
          (r.unwindptr + e.fdeFunctionStart) (leBytes 8 r.p ++ leBytes 8 r.relocSize) ∧
        (apple = false → r.registered = [r.unwindptr]) ∧
        (apple = true → registerFramesApple r.memory fuel r.unwindptr = some r.registered)) := by
  unfold addUnix at h
  rw [if_neg hcode] at h
  cases halloc : allocJitMemory virtualAlloc m
      ((round16 e.codeSize + e.unwindInfo.length) % sizeMod) with
  | error f =>
    simp only [halloc] at h
    cases h
  | ok pr =>
    obtain ⟨p, m1⟩ := pr
    simp only [halloc] at h
    by_cases hu : 0 < e.unwindInfo.length
    · rw [if_pos hu] at h
      cases apple with
      | false =>
        simp only [Bool.false_eq_true, if_false, Except.ok.injEq] at h
        subst h
        refine ⟨m1, rfl, rfl, rfl, rfl, rfl, rfl, rfl, fun h0 => by omega, fun _ => ?_⟩
        exact ⟨rfl, fun _ => rfl, fun hc => by cases hc⟩
      | true =>
        simp only [if_true] at h
        split at h
        · cases h
        · rename_i entries hwalk
          simp only [Except.ok.injEq] at h
          subst h
          refine ⟨m1, rfl, rfl, rfl, rfl, rfl, rfl, rfl, fun h0 => by omega, fun _ => ?_⟩
          exact ⟨rfl, fun hc => (by cases hc), fun _ => hwalk⟩
    · rw [if_neg hu] at h
      simp only [Except.ok.injEq] at h
      subst h
      refine ⟨m1, rfl, rfl, rfl, rfl, rfl, rfl, by simp, fun _ => ⟨rfl, rfl⟩, fun h0 => ?_⟩
      exact absurd h0 hu

theorem round16_bounds (x : Nat) (hx : x + 15 < sizeMod) :
    x ≤ round16 x ∧ round16 x < x + 16 ∧ 16 ∣ round16 x := by
  unfold round16
  have : (x + 15) % 2 ^ 64 = x + 15 := Nat.mod_eq_of_lt hx
  rw [this]
  refine ⟨by omega, by omega, Dvd.intro_left _ rfl⟩

/-- The statement `blockPos -= codeSize - unwindStart` in `size_t`, when nothing wraps. -/
theorem cursor_after_unwind (off c r u s : Nat) (hrc : r ≤ c) (hs : off + (c + u) < s) :
    (off + (c + u) + s - (c + s - r) % s) % s = off + r + u := by
  have e1 : (c + s - r) % s = c - r := by
    have h : c + s - r = (c - r) + s := by omega
    rw [h, Nat.add_mod_right]
    exact Nat.mod_eq_of_lt (by omega)
  rw [e1]
  have h : off + (c + u) + s - (c - r) = (off + r + u) + s := by omega
  rw [h, Nat.add_mod_right]
  exact Nat.mod_eq_of_lt (by omega)

/-- After a successful `allocJitMemory` call for at most 1 MiB (not wrapping around) the
cursor is inside the current block. -/
theorem allocJitMemory_ok_in_block (virtualAlloc : Nat → Option Nat) (m m1 : JitMemory)
    (size p : Nat) (hwrap : m.blockPos + size < sizeMod) (hsmall : size ≤ 1024 * 1024)
    (h : allocJitMemory virtualAlloc m size = .ok (p, m1)) : m1.blockPos ≤ m1.blockSize := by
  unfold allocJitMemory at h
  rw [Nat.mod_eq_of_lt hwrap] at h
  split at h
  · rename_i hfit
    cases hlast : m.blocks.getLast? with
    | none => rw [hlast] at h; cases h
    | some last =>
      rw [hlast] at h
      simp only [Except.ok.injEq, Prod.mk.injEq] at h
      obtain ⟨_, hm1⟩ := h
      subst hm1
      exact hfit
  · cases hbase : virtualAlloc (1024 * 1024) with
    | none => simp only [hbase] at h; cases h
    | some base =>
      simp only [hbase, Except.ok.injEq, Prod.mk.injEq] at h
      obtain ⟨_, hm1⟩ := h
      subst hm1
      exact hsmall

/-- C15, as stated, fails. A batch of 2 MiB placed on a fresh runtime on Linux gets a block of
1 MiB at 4096: the unwind bytes are written at 2101248, outside that block, and the cursor ends
at 2097176, above `blockSize`. And a second placement after a first one that ended at cursor 72
starts at `p = 4168`, so its unwind bytes are written at `p + 48 = 4216`, which is not a
multiple of 16: the boundary is 16-byte aligned relative to `p` only. -/
theorem addUnix_unwind_outside_block :
    (addUnix false 0 exampleAlloc exampleRelocateBig exampleBigUnixEmission (fun _ => 0)
        {}).toOption.map (fun r => (r.p, r.unwindptr, r.mem)) =
      some (4096, 2101248,
        { blocks := [4096], blockPos := 2097176, blockSize := 1048576, frames := [2101248] }) ∧
      ¬ (2101248 + 24 ≤ 4096 + 1048576) ∧
      (addUnix false 0 exampleAlloc exampleRelocate exampleUnixEmission (fun _ => 0)
        { blocks := [4096], blockPos := 72, blockSize := 1048576, frames := [4144] }).toOption.map
          (fun r => (r.p, r.unwindptr)) = some (4168, 4216) ∧
      4216 % 16 = 8 := by
  refine ⟨rfl, by decide, rfl, by decide⟩

/-- C15 as amended: Unix placement. For an `add` call with non-zero code size whose request
`round16(codeSize) + unwindInfoSize` is at most 1 MiB (nothing wrapping around in `size_t`) and
whose relocated size is at most the rounded code size: the unwind bytes are written at
`p + round16(relocSize)`, where `round16(relocSize)` is the first multiple of 16 at or after the
relocated size (the boundary is counted from `p`); they do not overlap the code bytes
`[p, p + relocSize)`; they lie inside the region `[p, p + round16(codeSize) + unwindInfoSize)`
reserved by `allocJitMemory` and inside the block that holds `p`; and in that block the cursor
ends at the end of the unwind bytes, `blockPos = offset(p) + round16(relocSize) +
unwindInfoSize <= blockSize`, so the code bytes and the unwind bytes are below the cursor, as
are the two patched words when `fdeFunctionStart + 16 <= unwindInfoSize`. -/
theorem addUnix_placement (apple : Bool) (fuel : Nat) (virtualAlloc : Nat → Option Nat)
    (relocate : (Nat → Nat) → Nat → (Nat → Nat) × Nat) (e : UnixEmission)
    (memory : Nat → Nat) (m : JitMemory) (r : UnixPlacement)
    (hcode : e.codeSize ≠ 0) (hcode15 : e.codeSize + 15 < sizeMod)
    (hsmall : round16 e.codeSize + e.unwindInfo.length ≤ 1024 * 1024)
    (hwrap : m.blockPos + (round16 e.codeSize + e.unwindInfo.length) < sizeMod)
    (hok : addUnix apple fuel virtualAlloc relocate e memory m = .ok r)
    (hreloc : r.relocSize ≤ round16 e.codeSize) :
    (∃ m1, allocJitMemory virtualAlloc m (round16 e.codeSize + e.unwindInfo.length) =
        .ok (r.p, m1)) ∧
      r.unwindptr = r.p + round16 r.relocSize ∧
      r.relocSize ≤ round16 r.relocSize ∧ round16 r.relocSize < r.relocSize + 16 ∧
      16 ∣ round16 r.relocSize ∧
      r.p + r.relocSize ≤ r.unwindptr ∧
      r.unwindptr + e.unwindInfo.length ≤ r.p + (round16 e.codeSize + e.unwindInfo.length) ∧
      (∃ base, r.mem.blocks.getLast? = some base ∧ base ≤ r.p ∧
        r.mem.blockPos = (r.p - base) + round16 r.relocSize + e.unwindInfo.length ∧
        base + r.mem.blockPos = r.unwindptr + e.unwindInfo.length ∧
        r.mem.blockPos ≤ r.mem.blockSize ∧
        r.unwindptr + e.unwindInfo.length ≤ base + r.mem.blockSize ∧
        (e.fdeFunctionStart + 16 ≤ e.unwindInfo.length →
          r.unwindptr + e.fdeFunctionStart + 16 ≤ base + r.mem.blockPos)) ∧
      ∀ i : Nat, i < e.unwindInfo.length →
        (i < e.fdeFunctionStart ∨ e.fdeFunctionStart + 16 ≤ i) →
        r.memory (r.unwindptr + i) = e.unwindInfo.getD i 0 := by
  obtain ⟨m1, h1, h2, h3, h4, h5, h6, _, h8, h9⟩ :=
    addUnix_ok_inv apple fuel virtualAlloc relocate e memory m r hcode hok
  have hc := round16_bounds e.codeSize hcode15
  have hmod : (round16 e.codeSize + e.unwindInfo.length) % sizeMod =
      round16 e.codeSize + e.unwindInfo.length := Nat.mod_eq_of_lt (by omega)
  rw [hmod] at h1
  obtain ⟨_, base, hb1, hb2, hb0, hb3⟩ := allocJitMemory_ok_cursor _ _ _ _ _ hwrap h1
  have hin := allocJitMemory_ok_in_block _ _ _ _ _ hwrap hsmall h1
  have hc16 : round16 e.codeSize + 16 ≤ sizeMod := by
    obtain ⟨k, hk⟩ := hc.2.2
    unfold sizeMod at hcode15 ⊢
    omega
  have hr := round16_bounds r.relocSize (by omega)
  have hr16 : round16 r.relocSize ≤ round16 e.codeSize := by
    obtain ⟨k, hk⟩ := hc.2.2
    obtain ⟨j, hj⟩ := hr.2.2
    omega
  have hpos : r.mem.blockPos = (r.p - base) + round16 r.relocSize + e.unwindInfo.length := by
    rw [h6, hb3]
    exact cursor_after_unwind _ _ _ _ _ hr16 (by omega)
  have hle : r.mem.blockPos ≤ r.mem.blockSize := by
    rw [hpos, h5]
    omega
  refine ⟨⟨m1, h1⟩, h3, hr.1, hr.2.1, hr.2.2, by rw [h3]; omega, by rw [h3]; omega,
    ⟨base, by rw [h4]; exact hb1, hb2, hpos, by rw [hpos, h3]; omega, hle,
      by rw [hpos] at hle; rw [h3]; omega,
      fun hf => by rw [hpos, h3]; omega⟩, ?_⟩
  intro i hi hout
  have hlen : (leBytes 8 r.p ++ leBytes 8 r.relocSize).length = 16 := by
    simp [length_leBytes]
  by_cases hu : 0 < e.unwindInfo.length
  · rw [(h9 hu).1]
    unfold writeMem
    rw [hlen]
    rw [if_neg (by omega), if_pos (by omega)]
    congr 1
    omega
  · omega

/-- C15 as amended, at a function of 48 code bytes, relocated to 40 bytes, with 24 bytes of
unwind information, placed on a fresh runtime on Linux: the unwind bytes go to `p + 48` and the
cursor ends at 72, inside the block. -/
theorem addUnix_placement_witness :
    ∃ r, addUnix false 0 exampleAlloc exampleRelocate exampleUnixEmission (fun _ => 0) {} =
        .ok r ∧
      r.p = 4096 ∧ r.unwindptr = r.p + round16 r.relocSize ∧ r.unwindptr = 4144 ∧
      r.mem.blockPos = 72 ∧ r.p + r.relocSize ≤ r.unwindptr ∧
      ∃ base, r.mem.blocks.getLast? = some base ∧ base ≤ r.p ∧
        r.unwindptr + exampleUnixEmission.unwindInfo.length ≤ base + r.mem.blockSize := by
  have h : ∃ r, addUnix false 0 exampleAlloc exampleRelocate exampleUnixEmission (fun _ => 0)
      {} = .ok r := ⟨_, rfl⟩
  obtain ⟨r, hr⟩ := h
  have hp : r.p = 4096 ∧ r.unwindptr = 4144 ∧ r.mem.blockPos = 72 ∧ r.relocSize = 40 := by
    have h' := hr
    simp only [addUnix, exampleUnixEmission, exampleAlloc, exampleRelocate, allocJitMemory,
      round16, sizeMod] at h'
    norm_num at h'
    subst h'
    exact ⟨rfl, rfl, rfl, rfl⟩
  have := addUnix_placement false 0 exampleAlloc exampleRelocate exampleUnixEmission
    (fun _ => 0) {} r (by decide) (by decide) (by decide) (by decide) hr
    (by rw [hp.2.2.2]; decide)
  obtain ⟨base, hb1, hb2, _, _, _, hb6, _⟩ := this.2.2.2.2.2.2.2.1
  exact ⟨r, hr, hp.1, this.2.1, hp.2.1, hp.2.2.1, this.2.2.2.2.2.1, base, hb1, hb2, hb6⟩

/-! ## The frame walk of the Apple path -/

theorem registeredStarts_cons (r : FdeRecord) (rest : List FdeRecord) :
    registeredStarts (r :: rest) =
      if r.offset ≠ 0 then r.start :: registeredStarts rest else registeredStarts rest := by
  unfold registeredStarts
  by_cases h : r.offset = 0
  · simp [List.filter_cons, h]
  · simp [List.filter_cons, h]

/-- On a blob the walk stops within one iteration per record plus one, and returns the starts of
the records with a non-zero offset field. -/
theorem registerFramesApple_blob (mem : Nat → Nat) (records : List FdeRecord) :
    ∀ (a fuel : Nat), IsBlob mem a records → records.length < fuel →
      registerFramesApple mem fuel a = some (registeredStarts records) := by
  induction records with
  | nil =>
    intro a fuel hblob hfuel
    obtain ⟨f, rfl⟩ : ∃ f, fuel = f + 1 := ⟨fuel - 1, by simp at hfuel; omega⟩
    have h0 : readMem mem a 4 = 0 := hblob
    simp [registerFramesApple, h0, registeredStarts]
  | cons r rest ih =>
    intro a fuel hblob hfuel
    obtain ⟨f, rfl⟩ : ∃ f, fuel = f + 1 := ⟨fuel - 1, by simp at hfuel; omega⟩
    have hf : rest.length < f := by simp at hfuel; omega
    obtain ⟨hstart, hcase⟩ := hblob
    rw [registeredStarts_cons, hstart]
    rcases hcase with ⟨_, hlen, hne, hlt, hoff, hrest⟩ | ⟨_, hword, hlen, hne, hlt, hoff, hrest⟩
    · have hstep : (r.length + 4) % 2 ^ 32 = r.length + 4 := Nat.mod_eq_of_lt hlt
      have hne2 : r.length ≠ 0xffffffff := by omega
      rw [registerFramesApple]
      simp only [hlen, hoff, hstep, if_neg hne, if_neg hne2, ih _ f hrest hf]
    · have hstep : (r.length + 12) % 2 ^ 64 = r.length + 12 := Nat.mod_eq_of_lt hlt
      rw [registerFramesApple]
      simp only [hword, hlen, hoff, hstep, if_neg hne, if_true, ih _ f hrest hf]
      rfl

/-- C13: single-record frame registration. For a memory that holds, at the start of the walk,
a sequence of records (32-bit form with a length outside the reserved range, or extended form)
followed by a zero length word, the walk stops within one iteration per record plus one, and the
entries registered are exactly the start addresses of the records whose offset field is non-zero,
in blob order; in the Apple `add` these entries, and nothing else, are passed to
`__register_frame` and appended to `frames`. -/
theorem apple_registers_records_with_offset (mem : Nat → Nat) (a fuel : Nat)
    (records : List FdeRecord) (hblob : IsBlob mem a records) (hfuel : records.length < fuel) :
    registerFramesApple mem fuel a = some (registeredStarts records) ∧
      (∀ x ∈ registeredStarts records, ∃ r ∈ records, r.start = x ∧ r.offset ≠ 0) ∧
      ∀ (virtualAlloc : Nat → Option Nat) (relocate : (Nat → Nat) → Nat → (Nat → Nat) × Nat)
        (e : UnixEmission) (memory : Nat → Nat) (m : JitMemory) (r : UnixPlacement),
        e.codeSize ≠ 0 → 0 < e.unwindInfo.length →
        m.blockPos + (round16 e.codeSize + e.unwindInfo.length) < sizeMod →
        addUnix true fuel virtualAlloc relocate e memory m = .ok r →
        r.memory = mem → r.unwindptr = a →
        r.registered = registeredStarts records ∧
          r.mem.frames = m.frames ++ registeredStarts records := by
  have hwalk := registerFramesApple_blob mem records a fuel hblob hfuel
  refine ⟨hwalk, ?_, ?_⟩
  · intro x hx
    unfold registeredStarts at hx
    simp only [List.mem_map, List.mem_filter] at hx
    obtain ⟨q, ⟨hq1, hq2⟩, hq3⟩ := hx
    exact ⟨q, hq1, hq3, by simpa using hq2⟩
  · intro virtualAlloc relocate e memory m r hcode hu hwrap hok hmem ha
    obtain ⟨m1, h1, _, _, _, _, _, h7, _, h9⟩ :=
      addUnix_ok_inv true fuel virtualAlloc relocate e memory m r hcode hok
    have h := (h9 hu).2.2 rfl
    rw [hmem, ha, hwalk] at h
    injection h with h
    rw [Nat.mod_eq_of_lt (by omega)] at h1
    have hfr := (allocJitMemory_ok_cursor _ _ _ _ _ hwrap h1).1
    exact ⟨h.symm, by rw [h7, hfr, ← h]⟩

/-- C13 at a blob of three records at address 4096: a 32-bit record with offset field 0, a
32-bit record with offset field 12 and an extended record with offset field 1. The walk
registers the second and the third. -/
theorem apple_registers_records_with_offset_witness :
    IsBlob exampleBlobMemory 4096 exampleBlobRecords ∧
      registerFramesApple exampleBlobMemory 4 4096 = some [4108, 4120] := by
  have hblob : IsBlob exampleBlobMemory 4096 exampleBlobRecords := by
    refine ⟨rfl, Or.inl ⟨rfl, by decide, by decide, by decide, by decide, ?_⟩⟩
    refine ⟨rfl, Or.inl ⟨rfl, by decide, by decide, by decide, by decide, ?_⟩⟩
    refine ⟨rfl, Or.inr ⟨rfl, by decide, by decide, by decide, by decide, by decide, ?_⟩⟩
    show readMem exampleBlobMemory _ 4 = 0
    decide
  exact ⟨hblob,
    (apple_registers_records_with_offset exampleBlobMemory 4096 4 exampleBlobRecords hblob
      (by decide)).1⟩

/-! ## The first allocation -/

/-- C19 at the failing input: from the initial state (no blocks, `blockPos = 0`,
`blockSize = 0`) the request `allocJitMemory(0)` satisfies `0 + 0 <= 0`, takes the reuse branch
and indexes the last element of the empty block list, whatever the operating system would
answer; the 64-bit Windows `add` makes this request for a batch with no code, whereas the Unix
`add` returns before allocating when the code size is zero; every non-zero request from the
initial state takes the allocation branch. -/
theorem allocJitMemory_zero_request_on_empty_runtime :
    allocJitMemory exampleAlloc {} 0 = .error .emptyBlockList ∧
      (∀ virtualAlloc : Nat → Option Nat,
        allocJitMemory virtualAlloc {} 0 = .error .emptyBlockList) ∧
      addWin64 exampleAlloc exampleRtlAdd
        { codeSize := 0, unwindDataSize := 0, functionTable := [] } {} =
          .error .emptyBlockList ∧
      (∀ (apple : Bool) (fuel : Nat),
        (addUnix apple fuel exampleAlloc exampleRelocate
          { codeSize := 0, unwindInfo := [], fdeFunctionStart := 0 } (fun _ => 0) {}).toOption.map
            (fun r => (r.p, r.mem)) = some (0, {})) ∧
      ∀ (virtualAlloc : Nat → Option Nat) (size : Nat), 0 < size → size < sizeMod →
        allocJitMemory virtualAlloc {} size ≠ .error .emptyBlockList := by
  refine ⟨rfl, fun _ => rfl, rfl, fun _ _ => rfl, ?_⟩
  intro virtualAlloc size h0 h1
  unfold allocJitMemory
  have : (({} : JitMemory).blockPos + size) % sizeMod = size := by
    show (0 + size) % sizeMod = size
    rw [Nat.zero_add]
    exact Nat.mod_eq_of_lt h1
  rw [this, if_neg (by show ¬ size ≤ 0; omega)]
  cases hbase : virtualAlloc (1024 * 1024) with
  | none => simp [hbase]
  | some base => simp [hbase]

/-! ## Zero initialisation -/

theorem written_append (s1 s2 : List (Int × Nat)) (j : Int) :
    Written (s1 ++ s2) j ↔ Written s1 j ∨ Written s2 j := by
  unfold Written
  constructor
  · rintro ⟨r, hr, h⟩
    rw [List.mem_append] at hr
    rcases hr with hr | hr
    · exact Or.inl ⟨r, hr, h⟩
    · exact Or.inr ⟨r, hr, h⟩
  · rintro (⟨r, hr, h⟩ | ⟨r, hr, h⟩)
    · exact ⟨r, List.mem_append_left _ hr, h⟩
    · exact ⟨r, List.mem_append_right _ hr, h⟩

theorem byteAt_storeBytes_unwritten (g : List Nat) (offset : Int) (n v : Nat) (j : Int)
    (h : ¬ Written [(offset, n)] j) :
    byteAt (storeBytes g offset (leBytes n v)) j = byteAt g j := by
  apply byteAt_storeBytes_outside
  rw [length_leBytes]
  by_contra hcon
  apply h
  exact ⟨(offset, n), List.mem_singleton.mpr rfl, by
    show offset ≤ j ∧ j < offset + n
    omega⟩

mutual
theorem initGlobal_unwritten (sz : IRType → Int) (f32 : Nat → Nat)
    (table : List (IRFunction × Nat)) : ∀ (c : IRConstant) (g g' : List Nat) (offset j : Int),
    JITRuntime.initGlobal sz f32 table g offset c = .ok g' →
      ¬ Written (storeFootprint sz offset c) j → byteAt g' j = byteAt g j
  | .struct t values, g, g', offset, j => by
    intro h hw
    rw [JITRuntime.initGlobal] at h
    rw [storeFootprint] at hw
    exact initGlobalFields_unwritten sz f32 table values g g' offset j h hw
  | .int t v, g, g', offset, j => by
    intro h hw
    cases t <;> simp [JITRuntime.initGlobal] at h <;>
      (subst h
       simp only [storeFootprint] at hw
       exact byteAt_storeBytes_unwritten _ _ _ _ _ hw)
  | .fp t v, g, g', offset, j => by
    intro h hw
    cases t <;> simp [JITRuntime.initGlobal] at h <;>
      (subst h
       simp only [storeFootprint] at hw
       exact byteAt_storeBytes_unwritten _ _ _ _ _ hw)
  | .function f, g, g', offset, j => by
    intro h hw
    simp only [JITRuntime.initGlobal, Except.ok.injEq] at h
    subst h
    simp only [storeFootprint] at hw
    exact byteAt_storeBytes_unwritten _ _ _ _ _ hw
  | .unknown t, g, g', offset, j => by
    intro h _
    simp [JITRuntime.initGlobal] at h
theorem initGlobalFields_unwritten (sz : IRType → Int) (f32 : Nat → Nat)
    (table : List (IRFunction × Nat)) :
    ∀ (cs : List IRConstant) (g g' : List Nat) (offset j : Int),
    JITRuntime.initGlobalFields sz f32 table g offset cs = .ok g' →
      ¬ Written (fieldsFootprint sz offset cs) j → byteAt g' j = byteAt g j
  | [], g, g', offset, j => by
    intro h _
    simp only [JITRuntime.initGlobalFields, Except.ok.injEq] at h
    rw [h]
  | c :: rest, g, g', offset, j => by
    intro h hw
    rw [JITRuntime.initGlobalFields] at h
    rw [fieldsFootprint, written_append] at hw
    cases hres : JITRuntime.initGlobal sz f32 table g offset c with
    | error e => rw [hres] at h; cases h
    | ok g1 =>
      rw [hres] at h
      have h1 := initGlobal_unwritten sz f32 table c g g1 offset j hres
        (fun hc => hw (Or.inl hc))
      have h2 := initGlobalFields_unwritten sz f32 table rest g1 g' _ j h
        (fun hc => hw (Or.inr hc))
      rw [h2, h1]
end

theorem initGlobals_unwritten (sz : IRType → Int) (f32 : Nat → Nat)
    (table : List (IRFunction × Nat)) (vs : List IRGlobalVariable) :
    ∀ (g g' : List Nat) (j : Int), initGlobals sz f32 table g vs = .ok g' →
      ¬ Written (globalsFootprint sz vs) j → byteAt g' j = byteAt g j := by
  induction vs with
  | nil =>
    intro g g' j h _
    simp only [initGlobals, Except.ok.injEq] at h
    rw [h]
  | cons a rest ih =>
    intro g g' j h hw
    rw [initGlobals] at h
    rw [globalsFootprint, written_append] at hw
    cases hinit : a.initialValue with
    | none =>
      simp only [hinit] at h
      exact ih g g' j h (fun hc => hw (Or.inr hc))
    | some c =>
      simp only [hinit] at h hw
      cases hres : JITRuntime.initGlobal sz f32 table g a.globalsOffset c with
      | error e => rw [hres] at h; cases h
      | ok g1 =>
        rw [hres] at h
        rw [ih g1 g' j h (fun hc => hw (Or.inr hc)),
          initGlobal_unwritten sz f32 table c g g1 _ j hres (fun hc => hw (Or.inl hc))]

theorem byteAt_resize_nil (n : Nat) (j : Int) : byteAt (resize [] n) j = 0 := by
  unfold byteAt resize
  split
  · simp only [List.take_nil, List.nil_append, List.length_nil, Nat.sub_zero,
      List.getD_eq_getElem?_getD]
    by_cases h : j.toNat < n
    · simp [List.getElem?_replicate, h]
    · simp [List.getElem?_replicate, h]
  · rfl

/-- A store of a variable's initializer is found in the footprint of the whole loop. -/
theorem written_globalsFootprint (sz : IRType → Int) (vs : List IRGlobalVariable) (j : Int)
    (h : Written (globalsFootprint sz vs) j) :
    ∃ v ∈ vs, ∃ c, v.initialValue = some c ∧ Written (storeFootprint sz v.globalsOffset c) j := by
  induction vs with
  | nil =>
    obtain ⟨r, hr, _⟩ := h
    simp [globalsFootprint] at hr
  | cons a rest ih =>
    rw [globalsFootprint, written_append] at h
    rcases h with h | h
    · cases hinit : a.initialValue with
      | none =>
        simp only [hinit] at h
        obtain ⟨r, hr, _⟩ := h
        simp at hr
      | some c =>
        simp only [hinit] at h
        exact ⟨a, List.mem_cons_self _ _, c, hinit, h⟩
    · obtain ⟨v, hv, c, hc, hw⟩ := ih h
      exact ⟨v, List.mem_cons_of_mem _ hv, c, hc, hw⟩

/-- When the layout does not overflow, the slots of two laid-out globals at different positions
have no byte in common. -/
theorem layoutGlobals_slots_disjoint (sz : IRType → Int) (vars : List IRGlobalVariable)
    (hnn : ∀ v ∈ vars, 0 ≤ sz v.elementType) (hfits : sumRound8 sz vars ≤ intMax)
    (i k : Nat) (vi vk : IRGlobalVariable)
    (hik : i ≠ k) (hi : (layoutGlobals sz vars 0).1[i]? = some vi)
    (hk : (layoutGlobals sz vars 0).1[k]? = some vk) (x : Int) :
    ¬ (vi.globalsOffset ≤ x ∧ x < vi.globalsOffset + round8 (sz vi.elementType) ∧
      vk.globalsOffset ≤ x ∧ x < vk.globalsOffset + round8 (sz vk.elementType)) := by
  have slot : ∀ (i k : Nat) (vi vk : IRGlobalVariable), i < k →
      (layoutGlobals sz vars 0).1[i]? = some vi → (layoutGlobals sz vars 0).1[k]? = some vk →
      vi.globalsOffset + round8 (sz vi.elementType) ≤ vk.globalsOffset := by
    intro i k vi vk hlt hi hk
    have hfit0 : (0 : Int) + sumRound8 sz vars ≤ intMax := by omega
    obtain ⟨wi, hwi, hvi⟩ := layoutGlobals_get sz vars 0 (le_refl 0) hnn hfit0 i vi hi
    obtain ⟨wk, _, hvk⟩ := layoutGlobals_get sz vars 0 (le_refl 0) hnn hfit0 k vk hk
    have h := sumRound8_take_slot sz vars hnn i k hlt wi hwi
    rw [hvi, hvk]
    simpa using h
  intro hx
  rcases Nat.lt_or_gt_of_ne hik with hlt | hgt
  · have := slot i k vi vk hlt hi hk
    omega
  · have := slot k i vk vi hgt hk hi
    omega

/-- C17, as stated, fails: with an Int8 global whose initializer is an aggregate of two Int64
constants followed by an Int64 global without initializer, `compile` on a fresh runtime lays the
second global out at offset 8 and the second field of the first initializer is written there,
so the slot of the uninitialised global does not read as zero. -/
theorem compile_initializer_spills_into_next_slot :
    JITRuntime.compile allocSizeOf id addWin32 {} [] exampleSpillGlobals [] =
        .ok ({ globals := [0, 0, 0, 0, 0, 0, 0, 0, 255, 255, 255, 255, 255, 255, 255, 255] },
          (layoutGlobals allocSizeOf exampleSpillGlobals 0).1) ∧
      (layoutGlobals allocSizeOf exampleSpillGlobals 0).1.map
        (fun v => (v.name, v.globalsOffset)) = [("a", 0), ("b", 8)] ∧
      loadLE [0, 0, 0, 0, 0, 0, 0, 0, 255, 255, 255, 255, 255, 255, 255, 255] 8 8 ≠ 0 := by
  refine ⟨rfl, rfl, ?_⟩
  decide

/-- C17 as amended: after `compile` on a fresh runtime, every byte of the storage block that
is not covered by a store of some global's initializer is zero; and when the allocation sizes
are non-negative, their rounded sizes sum to at most `INT_MAX` and every initializer stores only
inside the slot of its own global, the whole slot of every global without an initializer reads
as zero. -/
theorem compile_zero_initialises (sz : IRType → Int) (f32 : Nat → Nat)
    (add : MachineCodeHolder → JitMemory → Except Fault JitMemory) (rt rt' : JITRuntime)
    (functions : List IRFunction) (vars vs : List IRGlobalVariable)
    (maps : List (IRValue × Nat))
    (hfresh : rt.globals = [])
    (hok : JITRuntime.compile sz f32 add rt functions vars maps = .ok (rt', vs)) :
    (∀ j : Int, ¬ Written (globalsFootprint sz vs) j → byteAt rt'.globals j = 0) ∧
      ((∀ v ∈ vars, 0 ≤ sz v.elementType) → sumRound8 sz vars ≤ intMax →
        (∀ v ∈ vs, InitializerFitsSlot sz v) →
        ∀ v ∈ vs, v.initialValue = none → ∀ j : Int, v.globalsOffset ≤ j →
          j < v.globalsOffset + round8 (sz v.elementType) → byteAt rt'.globals j = 0) := by
  obtain ⟨_, hvs, _, _, hinit⟩ := compile_ok_inv sz f32 add rt functions vars maps rt' vs hok
  rw [hfresh, ← hvs] at hinit
  have hzero : ∀ j : Int, ¬ Written (globalsFootprint sz vs) j → byteAt rt'.globals j = 0 := by
    intro j hj
    rw [initGlobals_unwritten sz f32 _ vs _ _ j hinit hj]
    exact byteAt_resize_nil _ _
  refine ⟨hzero, ?_⟩
  intro hnn hfits hfit v hv hnone j hj1 hj2
  apply hzero
  intro hw
  obtain ⟨v', hv', c, hc, r, hr, hr1, hr2⟩ := written_globalsFootprint sz vs j hw
  have hslot := hfit v' hv' c hc r hr
  obtain ⟨i, hi⟩ := List.getElem?_of_mem hv
  obtain ⟨k, hk⟩ := List.getElem?_of_mem hv'
  have hik : i ≠ k := by
    intro heq
    subst heq
    rw [hi] at hk
    injection hk with hk
    subst hk
    rw [hnone] at hc
    cases hc
  rw [hvs] at hi hk
  exact layoutGlobals_slots_disjoint sz vars hnn hfits i k v v' hik hi hk j
    ⟨hj1, hj2, by omega, by omega⟩

/-- C17 as amended, at an Int8 global initialised with `0x1FF`, an Int32 global initialised
with `42` and an Int64 global without initializer on a fresh runtime: offset 16, in the slot of
the third global, is covered by no store and reads zero. -/
theorem compile_zero_initialises_witness :
    JITRuntime.compile allocSizeOf id addWin32 {} [] exampleIntGlobals [] =
        .ok ({ globals := [255, 0, 0, 0, 0, 0, 0, 0, 42, 0, 0, 0, 0, 0, 0, 0,
                           0, 0, 0, 0, 0, 0, 0, 0] },
          (layoutGlobals allocSizeOf exampleIntGlobals 0).1) ∧
      byteAt [255, 0, 0, 0, 0, 0, 0, 0, 42, 0, 0, 0, 0, 0, 0, 0, 0, 0, 0, 0, 0, 0, 0, 0] 16 = 0 :=
  ⟨rfl, (compile_zero_initialises allocSizeOf id addWin32 {}
    { globals := [255, 0, 0, 0, 0, 0, 0, 0, 42, 0, 0, 0, 0, 0, 0, 0, 0, 0, 0, 0, 0, 0, 0, 0] }
    [] exampleIntGlobals (layoutGlobals allocSizeOf exampleIntGlobals 0).1 [] rfl rfl).1 16
    (by
      unfold Written
      decide)⟩

end IRCompiler
